import Mathlib

set_option linter.unusedVariables false

namespace Crabtime

/-! Shallow embedding of the crabtime compile-time code-generation engine
(`src/macro/src/lib.rs`).  Strings from the Rust code are modelled as
`List Char`; proc_macro2 token trees are modelled by `TokenTree` below. -/

/-- Line and column of a source position (proc_macro2 `LineColumn`). -/
structure LC where
  line : Nat
  column : Nat
deriving Repr, DecidableEq

/-- Source span, carrying start and end positions (`span().start()` / `span().end()`). -/
structure Span where
  start : LC
  stop : LC
deriving Repr, DecidableEq

/-- Group delimiter (proc_macro2 `Delimiter`). -/
inductive Delim where
  | brace
  | paren
  | bracket
  | nodelim
deriving Repr, DecidableEq

/-- proc_macro2 `TokenTree`: a group with a delimiter and an inner stream,
an identifier, a literal, or a punctuation character.  Spacing info of
`Punct` is not read by the embedded code, so it is omitted. -/
inductive TokenTree where
  | group (d : Delim) (sp : Span) (stream : List TokenTree)
  | ident (s : String) (sp : Span)
  | lit (s : String) (sp : Span)
  | punct (c : Char) (sp : Span)
deriving Repr

/-- The apostrophe character, written by code point to keep sources plain. -/
def quoteChar : Char := Char.ofNat 39

def openChars : Delim → List Char
  | .brace => ['{']
  | .paren => ['(']
  | .bracket => ['[']
  | .nodelim => []

def closeChars : Delim → List Char
  | .brace => ['}']
  | .paren => [')']
  | .bracket => [']']
  | .nodelim => []

/-- The loop state of `print_tokens_internal`: accumulated output,
`first_token_start`, `prev_token_end` and `prev_token_was_brace`. -/
structure PrintState where
  output : List Char
  firstStart : Option LC
  prevEnd : Option LC
  prevWasBrace : Bool
deriving Repr, DecidableEq

def initPrintState : PrintState := ⟨[], none, none, false⟩

/-- The per-token data computed by the body of the loop in
`print_tokens_internal`: the token text, the (group-adjusted) start and end
positions, `is_brace`, and `add_space`. -/
structure Rendered where
  text : List Char
  start : LC
  stop : LC
  isBrace : Bool
  addSpace : Bool
deriving Repr, DecidableEq

/-- One iteration of the loop of `print_tokens_internal`, given the rendered
token: possibly pop a trailing space (the brace-compaction rule), push the
token text, push a following space unless `add_space` was cleared. -/
def stepWith (r : Rendered) (st : PrintState) : PrintState :=
  let out1 :=
    if r.isBrace || st.prevWasBrace then
      match st.prevEnd with
      | some pe =>
          if pe.line = r.start.line ∧ r.start.column ≤ pe.column ∧
              st.output.getLast? = some ' ' then
            st.output.dropLast
          else st.output
      | none => st.output
    else st.output
  let out2 := out1 ++ r.text
  let out3 := if r.addSpace then out2 ++ [' '] else out2
  { output := out3
    firstStart := some (st.firstStart.getD r.start)
    prevEnd := some r.stop
    prevWasBrace := r.isBrace }

mutual

/-- Rendering of a single token in `print_tokens_internal`: groups recurse
into their stream, drop the trailing character of the inner text
(`content_str.pop()`), and inherit adjusted start/end positions from the
first/last inner token; punctuation equal to an apostrophe clears
`add_space`. -/
def renderTok : TokenTree → Rendered
  | .group d sp ts =>
      let content := printLoop ts initPrintState
      let contentStr := content.output.dropLast
      let start1 : LC :=
        match content.firstStart with
        | some c => ⟨c.line, if 0 < c.column then c.column - 1 else sp.start.column⟩
        | none => sp.start
      let stop1 : LC :=
        match content.prevEnd with
        | some c => ⟨c.line, c.column + 1⟩
        | none => sp.stop
      ⟨openChars d ++ contentStr ++ closeChars d, start1, stop1, d = Delim.brace, true⟩
  | .ident s sp => ⟨s.data, sp.start, sp.stop, false, true⟩
  | .lit s sp => ⟨s.data, sp.start, sp.stop, false, true⟩
  | .punct c sp => ⟨[c], sp.start, sp.stop, false, c ≠ quoteChar⟩

/-- The loop of `print_tokens_internal` over the token vector. -/
def printLoop : List TokenTree → PrintState → PrintState
  | [], st => st
  | t :: ts, st => printLoop ts (stepWith (renderTok t) st)

end

/-- `print_tokens_internal`: serialize a token stream, returning the text and
the first/last token positions. -/
def printTokensInternal (ts : List TokenTree) : PrintState :=
  printLoop ts initPrintState

/-- Helper for `replaceAll`: `skip` counts source characters still to be
consumed silently because they were part of an already-replaced match. -/
def replAux (pat rep : List Char) : List Char → Nat → List Char
  | [], _ => []
  | _ :: rest, skip + 1 => replAux pat rep rest skip
  | c :: rest, 0 =>
    if pat ≠ [] ∧ pat.isPrefixOf (c :: rest) then
      rep ++ replAux pat rep rest (pat.length - 1)
    else
      c :: replAux pat rep rest 0

/-- Leftmost, non-overlapping replacement of `pat` by `rep`, the semantics of
Rust `str::replace`. -/
def replaceAll (pat rep s : List Char) : List Char :=
  replAux pat rep s 0

def braceL : Char := '{'
def braceR : Char := '}'

/-- `print_tokens`: the serialized text with every brace doubled and every
quadruple brace collapsed (in this order: `{`→`{{`, `}`→`}}`, `{{{{`→`{`,
`}}}}`→`}`). -/
def printTokens (ts : List TokenTree) : List Char :=
  replaceAll [braceR, braceR, braceR, braceR] [braceR]
    (replaceAll [braceL, braceL, braceL, braceL] [braceL]
      (replaceAll [braceR] [braceR, braceR]
        (replaceAll [braceL] [braceL, braceL]
          (printTokensInternal ts).output)))

/-! ### Two-token characterization of the space-suppression rule -/

theorem c2_aux_step_two (t₁ t₂ : TokenTree)
    (ha : (renderTok t₁).addSpace = true) :
    (printTokensInternal [t₁, t₂]).output =
      if ((renderTok t₂).isBrace = true ∨ (renderTok t₁).isBrace = true) ∧
          (renderTok t₁).stop.line = (renderTok t₂).start.line ∧
          (renderTok t₂).start.column ≤ (renderTok t₁).stop.column then
        (renderTok t₁).text ++ (renderTok t₂).text
          ++ (if (renderTok t₂).addSpace then [' '] else [])
      else
        (renderTok t₁).text ++ ' '
          :: ((renderTok t₂).text ++ (if (renderTok t₂).addSpace then [' '] else [])) := by
  have hstep1 : stepWith (renderTok t₁) initPrintState =
      ⟨(renderTok t₁).text ++ [' '], some (renderTok t₁).start,
        some (renderTok t₁).stop, (renderTok t₁).isBrace⟩ := by
    simp [stepWith, initPrintState, ha]
  show (printLoop [t₁, t₂] initPrintState).output = _
  simp only [printLoop, hstep1]
  by_cases hb : ((renderTok t₂).isBrace || (renderTok t₁).isBrace) = true
  · by_cases hlc : (renderTok t₁).stop.line = (renderTok t₂).start.line ∧
        (renderTok t₂).start.column ≤ (renderTok t₁).stop.column
    · have hcond : ((renderTok t₂).isBrace = true ∨ (renderTok t₁).isBrace = true) ∧
          (renderTok t₁).stop.line = (renderTok t₂).start.line ∧
          (renderTok t₂).start.column ≤ (renderTok t₁).stop.column :=
        ⟨by simpa [Bool.or_eq_true] using hb, hlc⟩
      rw [if_pos hcond]
      simp only [stepWith, hb, hlc, List.getLast?_concat, List.dropLast_concat]
      by_cases ha2 : (renderTok t₂).addSpace = true <;> simp [ha2, hlc]
    · have hcond : ¬ (((renderTok t₂).isBrace = true ∨ (renderTok t₁).isBrace = true) ∧
          (renderTok t₁).stop.line = (renderTok t₂).start.line ∧
          (renderTok t₂).start.column ≤ (renderTok t₁).stop.column) := by
        intro hc; exact hlc hc.2
      rw [if_neg hcond]
      have hsplit : ¬ ((renderTok t₁).stop.line = (renderTok t₂).start.line ∧
          (renderTok t₂).start.column ≤ (renderTok t₁).stop.column ∧
          ((renderTok t₁).text ++ [' ']).getLast? = some ' ') := by
        intro hc; exact hlc ⟨hc.1, hc.2.1⟩
      simp only [stepWith, hb, hsplit]
      by_cases ha2 : (renderTok t₂).addSpace = true <;> simp [ha2, hlc]
  · have hcond : ¬ (((renderTok t₂).isBrace = true ∨ (renderTok t₁).isBrace = true) ∧
        (renderTok t₁).stop.line = (renderTok t₂).start.line ∧
        (renderTok t₂).start.column ≤ (renderTok t₁).stop.column) := by
      intro hc
      rcases hc.1 with h | h <;> simp [h] at hb
    rw [if_neg hcond]
    simp only [Bool.or_eq_true, not_or] at hb
    simp only [stepWith, Bool.or_eq_false_iff, hb.1, hb.2]
    by_cases ha2 : (renderTok t₂).addSpace = true <;> simp [ha2]

/-- Claim C2, counterexample: serializing the single brace group of
`{ x }` (inner token separated from both braces in source) yields `{x}`
with no spaces: the source spacing inside a brace group next to its
delimiters is not preserved. -/
theorem c2_counterexample :
    (printTokensInternal
        [.group .brace ⟨⟨1, 0⟩, ⟨1, 5⟩⟩ [.ident "x" ⟨⟨1, 2⟩, ⟨1, 3⟩⟩]]).output
      = [braceL, 'x', braceR, ' '] ∧
    (printTokensInternal
        [.group .brace ⟨⟨1, 0⟩, ⟨1, 5⟩⟩ [.ident "x" ⟨⟨1, 2⟩, ⟨1, 3⟩⟩]]).output
      ≠ [braceL, ' ', 'x', ' ', braceR, ' '] := by
  refine ⟨by decide, by decide⟩

/-- Claim C2, amended: between two adjacent sibling tokens, the default
single separating space is suppressed exactly when the previous token or
the current one is a brace group and the current token's (group-adjusted)
start lies on the same line at a column not exceeding the previous token's
(group-adjusted) end column; in particular `f{x}` (touching) serializes
without the space and `f {x}` (separated) keeps it, while spaces inside a
brace group adjacent to its own delimiters are never emitted (`{ x }`
serializes as `{x}`). -/
theorem c2_space_suppression :
    (∀ t₁ t₂ : TokenTree, (renderTok t₁).addSpace = true →
      (printTokensInternal [t₁, t₂]).output =
        if ((renderTok t₂).isBrace = true ∨ (renderTok t₁).isBrace = true) ∧
            (renderTok t₁).stop.line = (renderTok t₂).start.line ∧
            (renderTok t₂).start.column ≤ (renderTok t₁).stop.column then
          (renderTok t₁).text ++ (renderTok t₂).text
            ++ (if (renderTok t₂).addSpace then [' '] else [])
        else
          (renderTok t₁).text ++ ' '
            :: ((renderTok t₂).text
              ++ (if (renderTok t₂).addSpace then [' '] else []))) ∧
    (printTokensInternal
        [.ident "f" ⟨⟨1, 0⟩, ⟨1, 1⟩⟩,
          .group .brace ⟨⟨1, 1⟩, ⟨1, 4⟩⟩ [.ident "x" ⟨⟨1, 2⟩, ⟨1, 3⟩⟩]]).output
      = ['f', braceL, 'x', braceR, ' '] ∧
    (printTokensInternal
        [.ident "f" ⟨⟨1, 0⟩, ⟨1, 1⟩⟩,
          .group .brace ⟨⟨1, 2⟩, ⟨1, 5⟩⟩ [.ident "x" ⟨⟨1, 3⟩, ⟨1, 4⟩⟩]]).output
      = ['f', ' ', braceL, 'x', braceR, ' '] ∧
    (printTokensInternal
        [.group .brace ⟨⟨1, 0⟩, ⟨1, 5⟩⟩ [.ident "x" ⟨⟨1, 2⟩, ⟨1, 3⟩⟩]]).output
      = [braceL, 'x', braceR, ' '] :=
  ⟨c2_aux_step_two, by decide, by decide, by decide⟩

/-- Witness for C2: the characterization applied to the touching pair
`f{x}` evaluates to the space-suppressed output. -/
theorem c2_space_suppression_witness :
    (renderTok (.ident "f" ⟨⟨1, 0⟩, ⟨1, 1⟩⟩)).addSpace = true ∧
    (printTokensInternal
        [.ident "f" ⟨⟨1, 0⟩, ⟨1, 1⟩⟩,
          .group .brace ⟨⟨1, 1⟩, ⟨1, 4⟩⟩ [.ident "x" ⟨⟨1, 2⟩, ⟨1, 3⟩⟩]]).output
      = ['f', braceL, 'x', braceR, ' '] := by
  refine ⟨by decide, ?_⟩
  have h := c2_space_suppression.1 (.ident "f" ⟨⟨1, 0⟩, ⟨1, 1⟩⟩)
    (.group .brace ⟨⟨1, 1⟩, ⟨1, 4⟩⟩ [.ident "x" ⟨⟨1, 2⟩, ⟨1, 3⟩⟩]) (by decide)
  rw [h]
  decide

/-! ### Brace escaping (`print_tokens`) and the formatting pass -/

def isBraceCh (c : Char) : Bool := c = braceL || c = braceR

/-- Doubling of every brace character (the composition of the two
single-character replacements done by `print_tokens`). -/
def doubleBraces : List Char → List Char
  | [] => []
  | c :: rest =>
    if isBraceCh c then c :: c :: doubleBraces rest else c :: doubleBraces rest

/-- No two adjacent characters are both braces (the no-adjacent-brace
ambiguity condition of the spec). -/
def noAdjBraces : List Char → Bool
  | [] => true
  | [_] => true
  | a :: b :: rest => !(isBraceCh a && isBraceCh b) && noAdjBraces (b :: rest)

/-- Not the closing brace (placeholder-name characters). -/
def notBraceR (c : Char) : Bool := c ≠ braceR

/-- One step-bounded pass of Rust `format!` over a template: `{{` and `}}`
become single braces, `{name}` is replaced through the substitution `σ`,
all else is copied (unmatched single braces, an error in Rust, are copied
verbatim).  `fuel` bounds the number of steps; `fuel = length` always
suffices. -/
def formatBracesF (σ : List Char → List Char) : Nat → List Char → List Char
  | 0, s => s
  | _ + 1, [] => []
  | _ + 1, [c] => [c]
  | fuel + 1, c :: c2 :: rest2 =>
    if c = braceL then
      if c2 = braceL then braceL :: formatBracesF σ fuel rest2
      else
        σ ((c2 :: rest2).takeWhile notBraceR)
          ++ formatBracesF σ fuel (((c2 :: rest2).dropWhile notBraceR).drop 1)
    else if c = braceR then
      if c2 = braceR then braceR :: formatBracesF σ fuel rest2
      else c :: formatBracesF σ fuel (c2 :: rest2)
    else c :: formatBracesF σ fuel (c2 :: rest2)

/-- One pass of Rust `format!` over a template. -/
def formatBraces (σ : List Char → List Char) (s : List Char) : List Char :=
  formatBracesF σ s.length s

theorem replaceAll_single_cons (c : Char) (rep : List Char) (a : Char)
    (rest : List Char) :
    replaceAll [c] rep (a :: rest)
      = if a = c then rep ++ replaceAll [c] rep rest
        else a :: replaceAll [c] rep rest := by
  by_cases h : a = c
  · subst h
    simp [replaceAll, replAux, List.isPrefixOf]
  · simp [replaceAll, replAux, List.isPrefixOf, h, Ne.symm h]

theorem doubleBraces_eq (s : List Char) :
    replaceAll [braceR] [braceR, braceR] (replaceAll [braceL] [braceL, braceL] s)
      = doubleBraces s := by
  induction s with
  | nil => rfl
  | cons a rest ih =>
    rw [replaceAll_single_cons]
    by_cases hL : a = braceL
    · subst hL
      rw [if_pos rfl]
      rw [show (([braceL, braceL] ++ replaceAll [braceL] [braceL, braceL] rest))
          = braceL :: braceL :: replaceAll [braceL] [braceL, braceL] rest from rfl]
      rw [replaceAll_single_cons, if_neg (by decide), replaceAll_single_cons,
        if_neg (by decide), ih]
      simp [doubleBraces, isBraceCh]
    · rw [if_neg hL, replaceAll_single_cons]
      by_cases hR : a = braceR
      · subst hR
        rw [if_pos rfl, ih]
        simp [doubleBraces, isBraceCh]
      · rw [if_neg hR, ih]
        simp [doubleBraces, isBraceCh, hL, hR]

theorem noAdjBraces_tail {a : Char} {rest : List Char}
    (h : noAdjBraces (a :: rest) = true) : noAdjBraces rest = true := by
  cases rest with
  | nil => rfl
  | cons b r =>
    simp only [noAdjBraces, Bool.and_eq_true] at h
    exact h.2

/-- Heads of `doubleBraces` outputs: the doubled text of a list starting
with a non-brace keeps that head. -/
theorem doubleBraces_head_nonbrace {r0 : Char} {r : List Char}
    (h : isBraceCh r0 = false) :
    doubleBraces (r0 :: r) = r0 :: doubleBraces r := by
  simp [doubleBraces, h]

/-- Replacement is the identity when the pattern occurs nowhere (no suffix
of the text starts with it). -/
theorem replAux_id_of_no_occ (pat rep : List Char) (s : List Char)
    (h : ∀ t, t <:+ s → pat.isPrefixOf t = false) :
    replAux pat rep s 0 = s := by
  induction s with
  | nil => rfl
  | cons c cs ih =>
    have h0 : pat.isPrefixOf (c :: cs) = false := h _ (List.suffix_refl _)
    rw [replAux, if_neg (by simp [h0])]
    rw [ih fun t ht => h t (ht.trans (List.suffix_cons c cs))]

/-- In the doubled text of an adjacent-brace-free string there is never a
quadruple of one brace character. -/
theorem no_quad_in_doubled (b : Char) (hb : isBraceCh b = true) (s : List Char)
    (h : noAdjBraces s = true) :
    ∀ t, t <:+ doubleBraces s → [b, b, b, b].isPrefixOf t = false := by
  induction s with
  | nil =>
    intro t ht
    have ht0 : t = [] := List.suffix_nil.mp (by simpa [doubleBraces] using ht)
    subst ht0
    simp [List.isPrefixOf]
  | cons a rest ih =>
    intro t ht
    have ihr := ih (noAdjBraces_tail h)
    by_cases hbr : isBraceCh a = true
    case neg =>
      rw [doubleBraces_head_nonbrace (by simpa using hbr)] at ht
      have hba : (b == a) = false := by
        rw [beq_eq_false_iff_ne]
        intro he
        rw [← he, hb] at hbr
        exact hbr rfl
      rcases List.suffix_cons_iff.mp ht with rfl | ht2
      · simp [List.isPrefixOf, hba]
      · exact ihr t ht2
    case pos =>
      rw [show doubleBraces (a :: rest) = a :: a :: doubleBraces rest by
        simp [doubleBraces, hbr]] at ht
      by_cases hab : b = a
      case neg =>
        have hba : (b == a) = false := beq_eq_false_iff_ne.mpr hab
        rcases List.suffix_cons_iff.mp ht with rfl | ht2
        · simp [List.isPrefixOf, hba]
        · rcases List.suffix_cons_iff.mp ht2 with rfl | ht3
          · simp [List.isPrefixOf, hba]
          · exact ihr t ht3
      case pos =>
        subst hab
        have hdr : doubleBraces rest = [] ∨
            ∃ r0 l, doubleBraces rest = r0 :: l ∧ (b == r0) = false := by
          cases rest with
          | nil => exact Or.inl rfl
          | cons r0 r =>
            have h0 : isBraceCh r0 = false := by
              simp only [noAdjBraces, Bool.and_eq_true, Bool.not_eq_true',
                Bool.and_eq_false_iff] at h
              rcases h.1 with h0 | h0
              · rw [hbr] at h0; exact Bool.noConfusion h0
              · exact h0
            refine Or.inr ⟨r0, doubleBraces r, doubleBraces_head_nonbrace h0, ?_⟩
            rw [beq_eq_false_iff_ne]
            intro he
            rw [← he, hb] at h0
            exact Bool.noConfusion h0
        rcases List.suffix_cons_iff.mp ht with rfl | ht2
        · rcases hdr with hnil | ⟨r0, l, hcons, hr0⟩
          · rw [hnil]; simp [List.isPrefixOf]
          · rw [hcons]; simp [List.isPrefixOf, hr0]
        · rcases List.suffix_cons_iff.mp ht2 with rfl | ht3
          · rcases hdr with hnil | ⟨r0, l, hcons, hr0⟩
            · rw [hnil]; simp [List.isPrefixOf]
            · rw [hcons]; simp [List.isPrefixOf, hr0]
          · exact ihr t ht3

theorem collapse_id (b : Char) (hb : isBraceCh b = true) (s : List Char)
    (h : noAdjBraces s = true) :
    replaceAll [b, b, b, b] [b] (doubleBraces s) = doubleBraces s :=
  replAux_id_of_no_occ _ _ _ (no_quad_in_doubled b hb s h)

theorem doubleBraces_ne_nil (x : Char) (l : List Char) :
    doubleBraces (x :: l) ≠ [] := by
  by_cases hx : isBraceCh x = true <;> simp [doubleBraces, hx]

theorem formatBracesF_doubleBraces (σ : List Char → List Char) (s : List Char) :
    ∀ fuel, (doubleBraces s).length ≤ fuel →
      formatBracesF σ fuel (doubleBraces s) = s := by
  induction s with
  | nil =>
    intro fuel _
    cases fuel <;> simp [doubleBraces, formatBracesF]
  | cons a rest ih =>
    intro fuel hfuel
    by_cases hbr : isBraceCh a = true
    · rw [show doubleBraces (a :: rest) = a :: a :: doubleBraces rest by
        simp [doubleBraces, hbr]] at hfuel ⊢
      cases fuel with
      | zero => simp at hfuel
      | succ f =>
        have hf : (doubleBraces rest).length ≤ f := by
          simp only [List.length_cons] at hfuel
          omega
        rcases (by simpa [isBraceCh] using hbr : a = braceL ∨ a = braceR) with h | h
          <;> subst h
        · simp [formatBracesF, ih f hf]
        · simp [formatBracesF, ih f hf, braceL, braceR]
    · rw [doubleBraces_head_nonbrace (by simpa using hbr)] at hfuel ⊢
      have h1 : ¬ a = braceL := fun he => by simp [he, isBraceCh] at hbr
      have h2 : ¬ a = braceR := fun he => by simp [he, isBraceCh] at hbr
      cases fuel with
      | zero => simp at hfuel
      | succ f =>
        cases hrest : rest with
        | nil => simp [doubleBraces, formatBracesF]
        | cons r0 r =>
          rcases hdb : doubleBraces (r0 :: r) with _ | ⟨y, l'⟩
          · exact absurd hdb (doubleBraces_ne_nil r0 r)
          · have hf : (doubleBraces (r0 :: r)).length ≤ f := by
              rw [hrest] at hfuel
              simp only [List.length_cons] at hfuel
              omega
            have ih2 : formatBracesF σ f (y :: l') = r0 :: r := by
              rw [← hdb]
              exact hrest ▸ ih f (hrest ▸ hf)
            simp [formatBracesF, h1, h2, ih2]

theorem formatBraces_doubleBraces (σ : List Char → List Char) (s : List Char) :
    formatBraces σ (doubleBraces s) = s :=
  formatBracesF_doubleBraces σ s (doubleBraces s).length (Nat.le_refl _)

/-- Claim C3, counterexample: on the touching nested brace groups of
`{{x}}`, the serialized text `{{x}}` is doubled to `{{{{x}}}}` and the
quadruples are then collapsed to SINGLE braces, giving `{x}` — not to
double braces as the claim states (which would give `{{x}}`), and the four
literal braces of the source do not each appear once after a formatting
pass. -/
theorem c3_counterexample :
    printTokens
        [.group .brace ⟨⟨1, 0⟩, ⟨1, 5⟩⟩
          [.group .brace ⟨⟨1, 1⟩, ⟨1, 4⟩⟩ [.ident "x" ⟨⟨1, 2⟩, ⟨1, 3⟩⟩]]]
      = [braceL, 'x', braceR, ' '] ∧
    printTokens
        [.group .brace ⟨⟨1, 0⟩, ⟨1, 5⟩⟩
          [.group .brace ⟨⟨1, 1⟩, ⟨1, 4⟩⟩ [.ident "x" ⟨⟨1, 2⟩, ⟨1, 3⟩⟩]]]
      ≠ [braceL, braceL, 'x', braceR, braceR, ' '] := by
  refine ⟨by decide, by decide⟩

/-- Claim C3, amended: `print_tokens` doubles every literal brace of the
serialized text and collapses every quadruple produced from two adjacent
braces to a SINGLE brace; consequently, when the serialized text has no two
adjacent braces, the escaped text is exactly the doubled text, and one
placeholder-formatting pass reproduces every literal brace of the
serialized text exactly once. -/
theorem c3_brace_escaping (ts : List TokenTree) (σ : List Char → List Char)
    (h : noAdjBraces (printTokensInternal ts).output = true) :
    printTokens ts = doubleBraces (printTokensInternal ts).output ∧
    formatBraces σ (printTokens ts) = (printTokensInternal ts).output := by
  have hdb : printTokens ts = doubleBraces (printTokensInternal ts).output := by
    show replaceAll [braceR, braceR, braceR, braceR] [braceR]
        (replaceAll [braceL, braceL, braceL, braceL] [braceL]
          (replaceAll [braceR] [braceR, braceR]
            (replaceAll [braceL] [braceL, braceL]
              (printTokensInternal ts).output))) = _
    rw [doubleBraces_eq, collapse_id braceL (by decide) _ h,
      collapse_id braceR (by decide) _ h]
  exact ⟨hdb, by rw [hdb]; exact formatBraces_doubleBraces σ _⟩

/-- Witness for C3 on the single brace group `{x}`: its serialized text has
no adjacent braces, and the escape→format pipeline reproduces it. -/
theorem c3_brace_escaping_witness :
    noAdjBraces (printTokensInternal
        [.group .brace ⟨⟨1, 0⟩, ⟨1, 5⟩⟩ [.ident "x" ⟨⟨1, 2⟩, ⟨1, 3⟩⟩]]).output
      = true ∧
    formatBraces (fun _ => [])
        (printTokens
          [.group .brace ⟨⟨1, 0⟩, ⟨1, 5⟩⟩ [.ident "x" ⟨⟨1, 2⟩, ⟨1, 3⟩⟩]])
      = [braceL, 'x', braceR, ' '] := by
  refine ⟨by decide, ?_⟩
  have h := (c3_brace_escaping
    [.group .brace ⟨⟨1, 0⟩, ⟨1, 5⟩⟩ [.ident "x" ⟨⟨1, 2⟩, ⟨1, 3⟩⟩]]
    (fun _ => []) (by decide)).2
  rw [h]
  decide

/-! ### Protocol parser (`parse_output`) -/

/-- `OUTPUT_PREFIX` from the sources. -/
def outputMarker : List Char := "[OUTPUT]".data

/-- ASCII whitespace recognised by the model of `str::trim`. -/
def isWhiteCh (c : Char) : Bool := c = ' ' || c = '\t' || c = '\n' || c = '\r'

/-- `str::trim`: strip leading and trailing whitespace. -/
def trimChars (s : List Char) : List Char :=
  ((s.dropWhile isWhiteCh).reverse.dropWhile isWhiteCh).reverse

/-- One observable action of the `parse_output` loop for one line. -/
inductive OutEvent where
  | outLine (s : List Char)
  | warnLine (s : List Char)
  | errLine (s : List Char)
  | echoLine (s : List Char)
deriving Repr, DecidableEq

/-- `str::split(sep)`. -/
def splitOnChar (sep : Char) : List Char → List (List Char)
  | [] => [[]]
  | c :: rest =>
    match splitOnChar sep rest with
    | [] => [[c]]
    | s :: ss => if c = sep then [] :: s :: ss else (c :: s) :: ss

/-- The loop of `parse_output` over the split lines, accumulating the
generated code and the emitted diagnostics/echo actions in order. -/
def parseOutputLines (wp ep : List Char) : List (List Char) → List Char × List OutEvent
  | [] => ([], [])
  | line :: rest =>
    let t := trimChars line
    let acc := parseOutputLines wp ep rest
    if outputMarker.isPrefixOf t then
      (t.drop outputMarker.length ++ '\n' :: acc.1,
        .outLine (t.drop outputMarker.length) :: acc.2)
    else if wp.isPrefixOf t then (acc.1, .warnLine (t.drop wp.length) :: acc.2)
    else if ep.isPrefixOf t then (acc.1, .errLine (t.drop ep.length) :: acc.2)
    else if t ≠ [] then (acc.1, .echoLine line :: acc.2)
    else acc

/-- Modelled from the spec: `Level::WARNING_PREFIX` lives in the `error`
module, which is not among the given sources; the library documentation fixes
the warning marker as `WARNING:`. -/
def warningMarker : List Char := "WARNING:".data

/-- Modelled from the spec: `Level::ERROR_PREFIX` lives in the `error`
module, which is not among the given sources; the library documentation fixes
the error marker as `ERROR:`. -/
def errorMarker : List Char := "ERROR:".data

/-- `parse_output`: split stdout on newlines and process each line. -/
def parseOutput (out : List Char) : List Char × List OutEvent :=
  parseOutputLines warningMarker errorMarker (splitOnChar '\n' out)

/-! ### Build-and-run orchestration (`run_cargo_project`) -/

/-- The runtime-failure marker searched for in stderr. -/
def panickedMarker : List Char :=
  "thread ".data ++ [quoteChar] ++ "main".data ++ [quoteChar] ++ " panicked".data

/-- `str::find`: index of the leftmost occurrence of `pat`. -/
def findSubstrIdx (pat : List Char) : List Char → Option Nat
  | [] => if pat.isPrefixOf ([] : List Char) then some 0 else none
  | c :: rest =>
    if pat.isPrefixOf (c :: rest) then some 0
    else (findSubstrIdx pat rest).map (· + 1)

inductive RunOutcome where
  | ok (stdout : List Char)
  | panicked (msg : List Char)
  | buildFailed (msg : List Char)
deriving Repr, DecidableEq

/-- Effects emitted by `run_cargo_project` before it returns. -/
inductive RunEffect where
  | eprint (s : List Char)
deriving Repr, DecidableEq

def compilationFailedMsg : List Char := "Compilation of the generated code failed.".data

/-- `run_cargo_project`, as a function of the subprocess exit status, stdout
and stderr: on failure, first forward raw stderr to the host error stream,
then either re-raise a runtime panic with the message from the marker onward
or report a generic build failure; on success return stdout. -/
def runCargoProject (success : Bool) (stdout stderr : List Char) :
    List RunEffect × RunOutcome :=
  if ¬ success then
    let effects := [RunEffect.eprint stderr]
    match findSubstrIdx panickedMarker stderr with
    | some i => (effects, .panicked (stderr.drop i))
    | none => (effects, .buildFailed compilationFailedMsg)
  else ([], .ok stdout)

/-! ### Pattern compiler (`parse_args`, `parse_arg_type`, `parse_inner_type`) -/

/-- The slice of `syn::Type` inspected by the code: a path type (with the
distinctions the code makes about its angle-bracketed arguments: absent,
first argument a type, or first argument not a type), a reference type, or
anything else. -/
inductive SynType where
  | path0 (segs : List String)
  | path1 (segs : List String) (firstArgTy : SynType)
  | path1NonTy (segs : List String)
  | ref (elem : SynType)
  | other
deriving Repr, DecidableEq

def intIdents : List String :=
  ["usize", "u8", "u16", "u32", "u64", "u128", "isize", "i8", "i16", "i32", "i64", "i128"]

/-- The fragment-matching pattern produced for one parameter. -/
inductive ArgPat where
  | litFrag (name : String)
  | exprFrag (name : String)
  | vecOf (inner : ArgPat)
deriving Repr, DecidableEq

/-- The decode expression produced for one parameter. -/
inductive ArgCode where
  | varRef (name : String)
  | stringifyStr (name : String)
  | stringifyToString (name : String)
  | collectVec (inner : ArgCode)
deriving Repr, DecidableEq

/-- `parse_inner_type`: reference-to-`str`, `String`, or an integer type of
any width; anything else yields nothing. -/
def parseInnerType (pfx : String) (ty : SynType) : Option (ArgPat × ArgCode) :=
  let nm := pfx ++ "_arg"
  match ty with
  | .ref elem =>
    match elem with
    | .path0 segs | .path1 segs _ | .path1NonTy segs =>
      match segs.getLast? with
      | some seg => if seg = "str" then some (.exprFrag nm, .stringifyStr nm) else none
      | none => none
    | _ => none
  | .path0 segs | .path1 segs _ | .path1NonTy segs =>
    match segs.getLast? with
    | some seg =>
      if seg = "String" then some (.exprFrag nm, .stringifyToString nm)
      else if seg ∈ intIdents then some (.litFrag nm, .varRef nm)
      else none
    | none => none
  | .other => none

/-- `parse_arg_type`: only path types are inspected; `Vec` with a leading
type argument wraps the inner pattern in a bracketed comma repetition, any
other path defers to `parse_inner_type`, and every non-path type (including
a top-level reference such as a string slice) yields nothing. -/
def parseArgType (pfx : String) (ty : SynType) : Option (ArgPat × ArgCode) :=
  match ty with
  | .path0 segs | .path1NonTy segs =>
    match segs.getLast? with
    | some seg => if seg = "Vec" then none else parseInnerType pfx ty
    | none => none
  | .path1 segs inner =>
    match segs.getLast? with
    | some seg =>
      if seg = "Vec" then
        match parseInnerType pfx inner with
        | some (p, c) => some (.vecOf p, .collectVec c)
        | none => none
      else parseInnerType pfx ty
    | none => none
  | .ref _ => none
  | .other => none

/-- The slice of `syn::Pat` inspected by the code. -/
inductive FnPat where
  | identPat (name : String)
  | macPat (tokens : String)
  | otherPat
deriving Repr, DecidableEq

/-- One function argument: a typed argument or a receiver. -/
inductive FnArg where
  | typed (pat : FnPat) (ty : SynType)
  | receiver
deriving Repr, DecidableEq

/-- Whether `quote!{#tp}.to_string()` equals the string `TokenStream`: true
exactly for the bare single-segment path without generic arguments. -/
def isTokenStreamTy : SynType → Bool
  | .path0 segs => segs = ["TokenStream"]
  | _ => false

inductive PatPiece where
  | comma
  | pat (p : ArgPat)
deriving Repr, DecidableEq

/-- The `str` payload of `Args::Pattern`: an explicit `pattern!` matcher, the
default empty stream, or the pieces built by the fallback loop (always
followed by an optional trailing comma matcher). -/
inductive PatSpec where
  | explicit (tokens : String)
  | emptyPat
  | built (pieces : List PatPiece)
deriving Repr, DecidableEq

inductive Args where
  | tokenStream (ident : String)
  | pattern (pieces : PatSpec)
deriving Repr, DecidableEq

/-- One `let #name: #ty = <decode?>;` statement of the generated decode
code. -/
structure LetStmt where
  name : String
  ty : SynType
  rhs : Option ArgCode
deriving Repr, DecidableEq

/-- The fallback loop of `parse_args`: a comma before every argument but the
first, then for every typed argument with an identifier pattern a `let`
statement whose right-hand side is the decode for its type when one exists. -/
def parseArgsFallback : List FnArg → Bool → List PatPiece × List LetStmt
  | [], _ => ([], [])
  | arg :: rest, isFirst =>
    let pre : List PatPiece := if isFirst then [] else [.comma]
    match arg with
    | .typed (.identPat nm) ty =>
      let acc := parseArgsFallback rest false
      match parseArgType nm ty with
      | some (p, c) => (pre ++ .pat p :: acc.1, ⟨nm, ty, some c⟩ :: acc.2)
      | none => (pre ++ acc.1, ⟨nm, ty, none⟩ :: acc.2)
    | _ =>
      let acc := parseArgsFallback rest false
      (pre ++ acc.1, acc.2)

/-- `parse_args_for_pattern`: a first argument whose pattern is a macro
invocation supplies the matcher verbatim. -/
def parseArgsForPattern : FnArg → Option Args
  | .typed (.macPat toks) _ => some (.pattern (.explicit toks))
  | _ => none

/-- `parse_args_for_token_stream`: a first argument `name: TokenStream`. -/
def parseArgsForTokenStream : FnArg → Option Args
  | .typed (.identPat nm) ty =>
    if isTokenStreamTy ty then some (.tokenStream nm) else none
  | _ => none

/-- `parse_args`: empty list gives the empty pattern; otherwise the two
specialized parsers are tried on the first argument, then the generic
fallback (which always succeeds). -/
def parseArgs (args : List FnArg) : Option (Args × List LetStmt) :=
  match args with
  | [] => some (.pattern .emptyPat, [])
  | arg :: _ =>
    match parseArgsForPattern arg with
    | some a => some (a, [])
    | none =>
      match parseArgsForTokenStream arg with
      | some a => some (a, [])
      | none =>
        let acc := parseArgsFallback args true
        some (.pattern (.built acc.1), acc.2)

/-- `function_impl` surfaces the `WRONG_ARGS` configuration error exactly
when `parse_args` yields nothing (`.context(...)?`). -/
def wrongArgsSurfaced (args : List FnArg) : Bool :=
  (parseArgs args).isNone

/-! ### Project name derivation (`project_name_from_input`) -/

def hexDigitChars : List Char := "0123456789abcdef".data

def toHexDigit (n : Nat) : Char := hexDigitChars.getD n '0'

/-- Rust formatting `{:016x}` of a 64-bit value: exactly sixteen lowercase
hexadecimal digits, zero padded. -/
def natToHex16 (n : Nat) : List Char :=
  (List.range 16).map fun i => toHexDigit (n / 16 ^ (15 - i) % 16)

/-- `project_name_from_input`, with the std `DefaultHasher` treated as an
external collaborator: `hashFn` stands for its (fixed and deterministic)
64-bit digest of the input text. -/
def projectNameFromInput (hashFn : String → Nat) (inputStr : String) : List Char :=
  "project_".data ++ natToHex16 (hashFn inputStr % 2 ^ 64)

/-- The stable-channel `Paths::new`: the working directory is the output
root joined with the crate name and the content-derived project name. -/
def pathsNewStable (hashFn : String → Nat) (outputRoot : List Char)
    (inputStr : String) : List Char :=
  outputRoot ++ '/' :: "crabtime".data ++ '/' :: projectNameFromInput hashFn inputStr

/-! ### Builtin-form expander (`expand_builtin_macro`) -/

def GEN_MOD : String := "crabtime"

/-- The span of tokens rebuilt by `proc_macro2::Group::new` (call site). -/
def callSiteSpan : Span := ⟨⟨0, 0⟩, ⟨0, 0⟩⟩

/-- `expand_builtin_macro`: scan for `crabtime :: name ! ( group )`; on a
match, expand the group interior first, apply `f`, splice the result, and
continue after the match; otherwise recurse into groups (rebuilding them
with the same delimiter) and pass other tokens through. -/
def expandBuiltin (name : String) (f : List TokenTree → List TokenTree)
    (input : List TokenTree) : List TokenTree :=
  match input with
  | [] => []
  | .ident c sp1 :: .punct c1 sp2 :: .punct c2 sp3 :: .ident n sp4 :: .punct e sp5
      :: .group d sp6 ts :: rest6 =>
    if c = GEN_MOD ∧ c1 = ':' ∧ c2 = ':' ∧ n = name ∧ e = '!' then
      f (expandBuiltin name f ts) ++ expandBuiltin name f rest6
    else
      .ident c sp1 ::
        expandBuiltin name f
          (.punct c1 sp2 :: .punct c2 sp3 :: .ident n sp4 :: .punct e sp5
            :: .group d sp6 ts :: rest6)
  | .group d _ ts :: rest =>
    .group d callSiteSpan (expandBuiltin name f ts) :: expandBuiltin name f rest
  | t :: rest => t :: expandBuiltin name f rest
  termination_by sizeOf input
  decreasing_by all_goals (simp; try omega)

/-- The number of occurrences of the builtin form `crabtime :: name ! (...)`
in a token stream, counted by the same scan as `expand_builtin_macro`
(groups that are not part of a match are scanned recursively). -/
def countMatches (name : String) (input : List TokenTree) : Nat :=
  match input with
  | [] => 0
  | .ident c _ :: .punct c1 sp2 :: .punct c2 sp3 :: .ident n sp4 :: .punct e sp5
      :: .group d sp6 ts :: rest6 =>
    if c = GEN_MOD ∧ c1 = ':' ∧ c2 = ':' ∧ n = name ∧ e = '!' then
      1 + countMatches name ts + countMatches name rest6
    else
      countMatches name
        (.punct c1 sp2 :: .punct c2 sp3 :: .ident n sp4 :: .punct e sp5
          :: .group d sp6 ts :: rest6)
  | .group _ _ ts :: rest => countMatches name ts + countMatches name rest
  | _ :: rest => countMatches name rest
  termination_by sizeOf input
  decreasing_by all_goals (simp; try omega)

/-! ### Span-erased token trees (structural equality) -/

/-- Token trees up to spans: the notion of structural equality used by the
round-trip and expander claims. -/
inductive RTree where
  | group (d : Delim) (ts : List RTree)
  | ident (s : List Char)
  | lit (s : List Char)
  | punct (c : Char)
deriving Repr

mutual

def eraseTok : TokenTree → RTree
  | .group d _ ts => .group d (eraseList ts)
  | .ident s _ => .ident s.data
  | .lit s _ => .lit s.data
  | .punct c _ => .punct c

def eraseList : List TokenTree → List RTree
  | [] => []
  | t :: ts => eraseTok t :: eraseList ts

end

/-- Unfolding of `expandBuiltin` on a head token that neither starts a
builtin-form match nor is a group. -/
theorem expandBuiltin_other (name : String) (f : List TokenTree → List TokenTree)
    (t : TokenTree) (rest : List TokenTree)
    (hni : ∀ (c : String) (sp1 : Span) (c1 : Char) (sp2 : Span) (c2 : Char)
      (sp3 : Span) (n : String) (sp4 : Span) (e : Char) (sp5 : Span) (d : Delim)
      (sp6 : Span) (g rest6 : List TokenTree),
      t = .ident c sp1 →
      rest = .punct c1 sp2 :: .punct c2 sp3 :: .ident n sp4 :: .punct e sp5
        :: .group d sp6 g :: rest6 → False)
    (hng : ∀ (d : Delim) (sp : Span) (g : List TokenTree),
      t = .group d sp g → False) :
    expandBuiltin name f (t :: rest) = t :: expandBuiltin name f rest := by
  rw [expandBuiltin.eq_def]
  split
  · rename_i heq
    cases heq
  · rename_i c sp1 c1 sp2 c2 sp3 n sp4 e sp5 d sp6 g rest6 heq
    injection heq with h1 h2
    exact (hni c sp1 c1 sp2 c2 sp3 n sp4 e sp5 d sp6 g rest6 h1 h2).elim
  · rename_i d sp g rest' heq
    injection heq with h1 h2
    exact (hng d sp g h1).elim
  · rename_i t' rest' heq
    injection heq with h1 h2
    rw [h1, h2]

/-- Unfolding of `countMatches` on a head token that neither starts a
builtin-form match nor is a group. -/
theorem countMatches_other (name : String)
    (t : TokenTree) (rest : List TokenTree)
    (hni : ∀ (c : String) (sp1 : Span) (c1 : Char) (sp2 : Span) (c2 : Char)
      (sp3 : Span) (n : String) (sp4 : Span) (e : Char) (sp5 : Span) (d : Delim)
      (sp6 : Span) (g rest6 : List TokenTree),
      t = .ident c sp1 →
      rest = .punct c1 sp2 :: .punct c2 sp3 :: .ident n sp4 :: .punct e sp5
        :: .group d sp6 g :: rest6 → False)
    (hng : ∀ (d : Delim) (sp : Span) (g : List TokenTree),
      t = .group d sp g → False) :
    countMatches name (t :: rest) = countMatches name rest := by
  rw [countMatches.eq_def]
  split
  · rename_i heq
    cases heq
  · rename_i c sp1 c1 sp2 c2 sp3 n sp4 e sp5 d sp6 g rest6 heq
    injection heq with h1 h2
    exact (hni c sp1 c1 sp2 c2 sp3 n sp4 e sp5 d sp6 g rest6 h1 h2).elim
  · rename_i d sp g rest' heq
    injection heq with h1 h2
    exact (hng d sp g h1).elim
  · rename_i t' rest' heq
    injection heq with h1 h2
    rw [h2]

/-- When a token stream contains no occurrence of the builtin form, the
expander rebuilds it unchanged up to spans (groups keep their delimiter and
get their interiors rewritten recursively). -/
theorem c4_aux_noMatch (name : String) (f : List TokenTree → List TokenTree)
    (ts : List TokenTree) :
    countMatches name ts = 0 →
    eraseList (expandBuiltin name f ts) = eraseList ts := by
  refine expandBuiltin.induct name f
    (fun l => countMatches name l = 0 →
      eraseList (expandBuiltin name f l) = eraseList l) ?_ ?_ ?_ ?_ ?_ ts
  · intro _
    simp [expandBuiltin, countMatches]
  · intro c sp1 c1 sp2 c2 sp3 n sp4 e sp5 d sp6 g rest6 hg ih1 ih2 h
    simp [countMatches, hg] at h
  · intro c sp1 c1 sp2 c2 sp3 n sp4 e sp5 d sp6 g rest6 hg ih h
    simp only [countMatches, if_neg hg] at h
    have htail : countMatches name
        (.punct c1 sp2 :: .punct c2 sp3 :: .ident n sp4 :: .punct e sp5
          :: .group d sp6 g :: rest6) = 0 := by
      simp only [countMatches]
      omega
    rw [expandBuiltin.eq_2, if_neg hg]
    simp only [eraseList]
    rw [ih htail]
    simp [eraseList]
  · intro d sp g rest ih1 ih2 h
    simp only [countMatches] at h
    simp only [expandBuiltin]
    have h1 : countMatches name g = 0 := by omega
    have h2 : countMatches name rest = 0 := by omega
    simp [eraseList, eraseTok, ih1 h1, ih2 h2]
  · intro t rest hni hng ih h
    rw [countMatches_other name t rest hni hng] at h
    rw [expandBuiltin_other name f t rest hni hng]
    simp [eraseList, ih h]

/-- Claim C4: the expander replaces every occurrence of the builtin form
`crabtime :: name ! ( ... )` — a matched occurrence is replaced by `f`
applied to its already-expanded interior (innermost first), a stream with
no occurrence is preserved up to spans with every group rebuilt around its
same delimiter and recursively rewritten interior, and on a tree with three
occurrences at different nesting depths all three are replaced. -/
theorem c4_expand_builtin :
    (∀ (name : String) (f : List TokenTree → List TokenTree) (ts : List TokenTree),
      countMatches name ts = 0 →
      eraseList (expandBuiltin name f ts) = eraseList ts) ∧
    (∀ (name : String) (f : List TokenTree → List TokenTree)
      (sp1 sp2 sp3 sp4 sp5 sp6 : Span) (d : Delim) (g rest : List TokenTree),
      expandBuiltin name f
          (.ident GEN_MOD sp1 :: .punct ':' sp2 :: .punct ':' sp3
            :: .ident name sp4 :: .punct '!' sp5 :: .group d sp6 g :: rest)
        = f (expandBuiltin name f g) ++ expandBuiltin name f rest) ∧
    (expandBuiltin "output"
        (fun s => [.group .bracket callSiteSpan (.ident "M" callSiteSpan :: s)])
        [.ident "crabtime" callSiteSpan, .punct ':' callSiteSpan,
          .punct ':' callSiteSpan, .ident "output" callSiteSpan,
          .punct '!' callSiteSpan,
          .group .paren callSiteSpan
            [.ident "crabtime" callSiteSpan, .punct ':' callSiteSpan,
              .punct ':' callSiteSpan, .ident "output" callSiteSpan,
              .punct '!' callSiteSpan,
              .group .paren callSiteSpan [.ident "x" callSiteSpan]],
          .group .brace callSiteSpan
            [.ident "y" callSiteSpan, .punct ',' callSiteSpan,
              .ident "crabtime" callSiteSpan, .punct ':' callSiteSpan,
              .punct ':' callSiteSpan, .ident "output" callSiteSpan,
              .punct '!' callSiteSpan,
              .group .paren callSiteSpan [.ident "z" callSiteSpan]]]
      = [.group .bracket callSiteSpan
          [.ident "M" callSiteSpan,
            .group .bracket callSiteSpan
              [.ident "M" callSiteSpan, .ident "x" callSiteSpan]],
         .group .brace callSiteSpan
          [.ident "y" callSiteSpan, .punct ',' callSiteSpan,
            .group .bracket callSiteSpan
              [.ident "M" callSiteSpan, .ident "z" callSiteSpan]]]) := by
  refine ⟨fun name f ts => c4_aux_noMatch name f ts, ?_, ?_⟩
  · intro name f sp1 sp2 sp3 sp4 sp5 sp6 d g rest
    rw [expandBuiltin.eq_2, if_pos ⟨rfl, rfl, rfl, rfl, rfl⟩]
  · simp [expandBuiltin, GEN_MOD]

/-- Witness for C4 at a concrete match-free stream containing a group. -/
theorem c4_expand_builtin_witness :
    countMatches "output"
        [.ident "q" callSiteSpan,
          .group .paren callSiteSpan [.ident "w" callSiteSpan]] = 0 ∧
    eraseList (expandBuiltin "output" (fun _ => [])
        [.ident "q" callSiteSpan,
          .group .paren callSiteSpan [.ident "w" callSiteSpan]])
      = eraseList
          [.ident "q" callSiteSpan,
            .group .paren callSiteSpan [.ident "w" callSiteSpan]] := by
  have h0 : countMatches "output"
      [.ident "q" callSiteSpan,
        .group .paren callSiteSpan [.ident "w" callSiteSpan]] = 0 := by
    simp [countMatches]
  exact ⟨h0, c4_expand_builtin.1 "output" (fun _ => []) _ h0⟩

/-! ### Re-parsing: a lexer for serialized token text (claim C1) -/

def isOpenCh (c : Char) : Bool := c = '(' || c = '[' || c = braceL
def isCloseCh (c : Char) : Bool := c = ')' || c = ']' || c = braceR

def closeFor (c : Char) : Char :=
  if c = '(' then ')' else if c = '[' then ']' else braceR

def delimFor (c : Char) : Delim :=
  if c = '(' then .paren else if c = '[' then .bracket else .brace

def identStartCh (c : Char) : Bool := c.isAlpha || c = '_'
def identCh (c : Char) : Bool := c.isAlpha || c.isDigit || c = '_'
def litCh (c : Char) : Bool := identCh c || c = '.'

/-- A tokenizer with standard token spacing rules: whitespace separates
tokens, delimiters open and close groups, identifier and literal characters
form maximal runs, and any other character is one punctuation token.
Returns the trees parsed up to the first unmatched closing delimiter (or
the end), together with the unconsumed remainder.  `fuel` bounds the number
of steps; `length + 1` always suffices. -/
def lexMany : Nat → List Char → Option (List RTree × List Char)
  | 0, _ => none
  | _ + 1, [] => some ([], [])
  | fuel + 1, c :: cs =>
    if c = ' ' then lexMany fuel cs
    else if isCloseCh c then some ([], c :: cs)
    else if isOpenCh c then
      match lexMany fuel cs with
      | some (inner, rest) =>
        match rest with
        | d :: rest2 =>
          if d = closeFor c then
            match lexMany fuel rest2 with
            | some (ts, r) => some (.group (delimFor c) inner :: ts, r)
            | none => none
          else none
        | [] => none
      | none => none
    else if identStartCh c then
      match lexMany fuel ((c :: cs).dropWhile identCh) with
      | some (ts, r) => some (.ident ((c :: cs).takeWhile identCh) :: ts, r)
      | none => none
    else if c.isDigit then
      match lexMany fuel ((c :: cs).dropWhile litCh) with
      | some (ts, r) => some (.lit ((c :: cs).takeWhile litCh) :: ts, r)
      | none => none
    else
      match lexMany fuel cs with
      | some (ts, r) => some (.punct c :: ts, r)
      | none => none

/-- The punctuation characters a well-formed token tree may contain (the
proc_macro2 `Punct` alphabet). -/
def punctChars : List Char :=
  ['!', '#', '$', '%', '&', '*', '+', ',', '-', '.', '/', ':', ';', '<',
    '=', '>', '?', '@', '^', '|', '~', '\\'] ++ [quoteChar]

def punctOk (c : Char) : Bool := punctChars.contains c

/-- Identifier text: nonempty, starts with a letter or underscore, then
identifier characters. -/
def identText : List Char → Bool
  | [] => false
  | c :: cs => identStartCh c && cs.all identCh

/-- Literal text: nonempty, starts with a digit, then literal characters
(covers integer, fixed-point and suffixed numeric literals). -/
def litText : List Char → Bool
  | [] => false
  | c :: cs => c.isDigit && cs.all litCh

/-- The last token of a group body may not be a lone apostrophe punct (the
serializer's `content_str.pop()` would swallow it). -/
def lastNotQuote (ts : List RTree) : Bool :=
  match ts.getLast? with
  | some (.punct c) => c ≠ quoteChar
  | _ => true

mutual

/-- Well-formed span-erased token trees: the lexical classes every real
Rust token satisfies, groups with a real delimiter whose body does not end
in a lone apostrophe. -/
def wfRTok : RTree → Bool
  | .group d ts => (d ≠ Delim.nodelim) && wfRList ts && lastNotQuote ts
  | .ident s => identText s
  | .lit s => litText s
  | .punct c => punctOk c

def wfRList : List RTree → Bool
  | [] => true
  | t :: ts => wfRTok t && wfRList ts

end

def isGroupR : RTree → Bool
  | .group _ _ => true
  | _ => false

def isPunctR : RTree → Bool
  | .punct _ => true
  | _ => false

/-- The separator the serializer appends after a token: a single space,
except after an apostrophe punct. -/
def defSep (u : RTree) : List Char :=
  match u with
  | .punct c => if c = quoteChar then [] else [' ']
  | _ => [' ']

/-- The trailing separator after serializing a token list, given the
separator `sep` pending from the previous token. -/
def trailOf (sep : List Char) (rts : List RTree) : List Char :=
  match rts.getLast? with
  | none => sep
  | some u => defSep u

mutual

/-- `TokTxt u s`: `s` is a possible serialized text of the erased token
`u` (group interiors depend on source spans, hence a relation). -/
inductive TokTxt : RTree → List Char → Prop where
  | identT : ∀ s, TokTxt (.ident s) s
  | litT : ∀ s, TokTxt (.lit s) s
  | punctT : ∀ c, TokTxt (.punct c) [c]
  | groupT : ∀ d ts cs, GrpC ts cs →
      TokTxt (.group d ts) (openChars d ++ cs ++ closeChars d)

/-- `GrpC ts cs`: `cs` is a possible serialized interior of a group with
body `ts` (the trailing separator already popped). -/
inductive GrpC : List RTree → List Char → Prop where
  | nil : GrpC [] []
  | cons : ∀ u rest s out, TokTxt u s → EmitsNT (defSep u) u rest out →
      GrpC (u :: rest) (s ++ out)

/-- `EmitsNT sep p rts out`: after a token `p` whose pending separator is
`sep`, serializing `rts` appends exactly `out` (without the final trailing
separator).  The separator before each token is either kept, or dropped when
a brace group is involved (and it is absent after an apostrophe). -/
inductive EmitsNT : List Char → RTree → List RTree → List Char → Prop where
  | nil : ∀ sep p, EmitsNT sep p [] []
  | keep : ∀ sep p u rest s out, TokTxt u s →
      (sep = [' '] ∨ isPunctR p = true ∨ isGroupR p = true) →
      EmitsNT (defSep u) u rest out →
      EmitsNT sep p (u :: rest) (sep ++ s ++ out)
  | drop : ∀ p u rest s out, TokTxt u s →
      (isGroupR p = true ∨ isGroupR u = true) →
      EmitsNT (defSep u) u rest out →
      EmitsNT [' '] p (u :: rest) (s ++ out)

end

/-! ### Character-class facts for the lexer -/

theorem isAlpha_false_of_isDigit {c : Char} (h : c.isDigit = true) :
    c.isAlpha = false := by
  simp [Char.isDigit, Char.isAlpha, Char.isUpper, Char.isLower, Char.le_def,
    UInt32.le_def, UInt32.lt_def, Fin.le_def, Fin.lt_def,
    BitVec.le_def, BitVec.lt_def] at *
  omega

theorem identStart_not_special {c : Char} (h : identStartCh c = true) :
    c ≠ ' ' ∧ isCloseCh c = false ∧ isOpenCh c = false := by
  refine ⟨fun he => by subst he; exact absurd h (by decide), ?_, ?_⟩
  · by_cases h2 : isCloseCh c = true
    · exfalso
      rcases (by simpa [isCloseCh] using h2 : (c = ')' ∨ c = ']') ∨ c = braceR)
        with (rfl | rfl) | rfl
        <;> exact absurd h (by decide)
    · simpa using h2
  · by_cases h2 : isOpenCh c = true
    · exfalso
      rcases (by simpa [isOpenCh] using h2 : (c = '(' ∨ c = '[') ∨ c = braceL)
        with (rfl | rfl) | rfl
        <;> exact absurd h (by decide)
    · simpa using h2

theorem digit_not_special {c : Char} (h : c.isDigit = true) :
    c ≠ ' ' ∧ isCloseCh c = false ∧ isOpenCh c = false ∧
    identStartCh c = false := by
  refine ⟨fun he => by subst he; exact absurd h (by decide), ?_, ?_, ?_⟩
  · by_cases h2 : isCloseCh c = true
    · exfalso
      rcases (by simpa [isCloseCh] using h2 : (c = ')' ∨ c = ']') ∨ c = braceR)
        with (rfl | rfl) | rfl
        <;> exact absurd h (by decide)
    · simpa using h2
  · by_cases h2 : isOpenCh c = true
    · exfalso
      rcases (by simpa [isOpenCh] using h2 : (c = '(' ∨ c = '[') ∨ c = braceL)
        with (rfl | rfl) | rfl
        <;> exact absurd h (by decide)
    · simpa using h2
  · have ha := isAlpha_false_of_isDigit h
    simp only [identStartCh, ha, Bool.false_or, decide_eq_false_iff_not]
    intro he
    subst he
    exact absurd h (by decide)

theorem punct_not_special {c : Char} (h : punctOk c = true) :
    c ≠ ' ' ∧ isCloseCh c = false ∧ isOpenCh c = false ∧
    identStartCh c = false ∧ c.isDigit = false := by
  have hm : c ∈ punctChars := by
    simpa [punctOk, List.contains_iff_exists_mem_beq, beq_iff_eq, eq_comm] using h
  fin_cases hm <;> exact ⟨by decide, by decide, by decide, by decide, by decide⟩

theorem close_not_run {c : Char} (h : isCloseCh c = true) :
    identCh c = false ∧ litCh c = false := by
  rcases (by simpa [isCloseCh] using h : (c = ')' ∨ c = ']') ∨ c = braceR)
    with (rfl | rfl) | rfl
    <;> exact ⟨by decide, by decide⟩

theorem open_not_run {c : Char} (h : isOpenCh c = true) :
    identCh c = false ∧ litCh c = false := by
  rcases (by simpa [isOpenCh] using h : (c = '(' ∨ c = '[') ∨ c = braceL)
    with (rfl | rfl) | rfl
    <;> exact ⟨by decide, by decide⟩

/-- Head condition for a maximal-run split. -/
def tailHeadNot (p : Char → Bool) : List Char → Prop
  | [] => True
  | c :: _ => p c = false

theorem run_split (p : Char → Bool) (s tail : List Char) (hs : s.all p = true)
    (ht : tailHeadNot p tail) :
    (s ++ tail).takeWhile p = s ∧ (s ++ tail).dropWhile p = tail := by
  induction s with
  | nil =>
    cases tail with
    | nil => simp
    | cons c r =>
      simp only [tailHeadNot] at ht
      simp [List.takeWhile, List.dropWhile, ht]
  | cons a s' ih =>
    simp only [List.all_cons, Bool.and_eq_true] at hs
    have := ih hs.2
    simp [List.takeWhile, List.dropWhile, hs.1, this.1, this.2]

/-! ### Serializer-output characterization: helper lemmas -/

theorem isBrace_isGroupR (t : TokenTree) (h : (renderTok t).isBrace = true) :
    isGroupR (eraseTok t) = true := by
  cases t <;> simp [renderTok, eraseTok, isGroupR] at *

theorem rsep_defSep (t : TokenTree) :
    (if (renderTok t).addSpace = true then [' '] else ([] : List Char))
      = defSep (eraseTok t) := by
  cases t with
  | punct c sp =>
    by_cases hc : c = quoteChar <;> simp [renderTok, eraseTok, defSep, hc]
  | group d sp ts => simp [renderTok, eraseTok, defSep]
  | ident s sp => simp [renderTok, eraseTok, defSep]
  | lit s sp => simp [renderTok, eraseTok, defSep]

theorem noSpace_text (t : TokenTree) (h : (renderTok t).addSpace = false) :
    (renderTok t).text = [quoteChar] ∧ isPunctR (eraseTok t) = true := by
  cases t with
  | punct c sp =>
    by_cases hc : c = quoteChar
    · subst hc; exact ⟨rfl, rfl⟩
    · simp [renderTok, hc] at h
  | group d sp ts => simp [renderTok] at h
  | ident s sp => simp [renderTok] at h
  | lit s sp => simp [renderTok] at h

theorem trailOf_cons (sep : List Char) (x : RTree) (l : List RTree) :
    trailOf sep (x :: l) = trailOf (defSep x) l := by
  cases l with
  | nil => simp [trailOf]
  | cons y r =>
    unfold trailOf
    rw [List.getLast?_cons_cons]
    cases hg : (y :: r).getLast? with
    | none => simp at hg
    | some z => simp [hg]

theorem trailOf_eq_space (u : RTree) (rts : List RTree)
    (hl : lastNotQuote (u :: rts) = true) :
    trailOf (defSep u) rts = [' '] := by
  unfold trailOf
  cases hg : rts.getLast? with
  | none =>
    have hr : rts = [] := by
      cases rts with
      | nil => rfl
      | cons y r => simp at hg
    subst hr
    have hgu : (u :: ([] : List RTree)).getLast? = some u := by simp
    unfold lastNotQuote at hl
    rw [hgu] at hl
    cases u with
    | punct c => simp [defSep, show c ≠ quoteChar by simpa using hl]
    | group d ts => rfl
    | ident s => rfl
    | lit s => rfl
  | some z =>
    have hgz : (u :: rts).getLast? = some z := by
      cases rts with
      | nil => simp at hg
      | cons y r => rw [List.getLast?_cons_cons]; exact hg
    unfold lastNotQuote at hl
    rw [hgz] at hl
    cases z with
    | punct c => simp [defSep, show c ≠ quoteChar by simpa using hl]
    | group d ts => rfl
    | ident s => rfl
    | lit s => rfl

theorem stepWith_prevEnd (r : Rendered) (st : PrintState) :
    (stepWith r st).prevEnd = some r.stop := by
  simp [stepWith]

theorem stepWith_prevWasBrace (r : Rendered) (st : PrintState) :
    (stepWith r st).prevWasBrace = r.isBrace := by
  simp [stepWith]

theorem stepWith_init_output (r : Rendered) :
    (stepWith r initPrintState).output
      = r.text ++ (if r.addSpace = true then [' '] else []) := by
  cases hb : r.isBrace <;> cases ha : r.addSpace
    <;> simp [stepWith, initPrintState, hb, ha]

theorem stepWith_output (r : Rendered) (st : PrintState) (pe : LC)
    (hpe : st.prevEnd = some pe) :
    (stepWith r st).output
      = (if (r.isBrace || st.prevWasBrace) = true ∧
            (pe.line = r.start.line ∧ r.start.column ≤ pe.column ∧
              st.output.getLast? = some ' ')
          then st.output.dropLast else st.output)
        ++ r.text ++ (if r.addSpace = true then [' '] else []) := by
  cases hb : (r.isBrace || st.prevWasBrace) with
  | false =>
    simp only [stepWith, hpe, hb]
    cases ha : r.addSpace <;> simp [hb, ha]
  | true =>
    simp only [stepWith, hpe, hb]
    by_cases hc : pe.line = r.start.line ∧ r.start.column ≤ pe.column ∧
        st.output.getLast? = some ' '
    · cases ha : r.addSpace <;> simp [hb, hc, ha]
    · cases ha : r.addSpace <;> simp [hb, hc, ha]

/-- Invariant on the pending separator of the serializer loop: either it is
the single space, or it is empty, the previous token is an apostrophe punct
or a group, and the accumulated text does not end in a space. -/
def sepInv (sep : List Char) (pr : RTree) (base : List Char) : Prop :=
  sep = [' '] ∨
    (sep = [] ∧ (isPunctR pr = true ∨ isGroupR pr = true) ∧
      base.getLast? ≠ some ' ')

theorem print_chunks_main : ∀ n : Nat,
    (∀ t : TokenTree, sizeOf t ≤ n → wfRTok (eraseTok t) = true →
      TokTxt (eraseTok t) (renderTok t).text) ∧
    (∀ (ts : List TokenTree) (st : PrintState) (base sep : List Char)
        (pr : RTree) (pe : LC),
      sizeOf ts ≤ n → wfRList (eraseList ts) = true →
      st.output = base ++ sep → st.prevEnd = some pe →
      (st.prevWasBrace = true → isGroupR pr = true) →
      sepInv sep pr base →
      ∃ out,
        (printLoop ts st).output = base ++ out ++ trailOf sep (eraseList ts) ∧
        EmitsNT sep pr (eraseList ts) out) := by
  intro n
  induction n using Nat.strong_induction_on with
  | _ n IH =>
  have sepInvNew : ∀ t : TokenTree, ∀ base' : List Char,
      sepInv (if (renderTok t).addSpace = true then [' '] else [])
        (eraseTok t) (base' ++ (renderTok t).text) := by
    intro t base'
    cases ha : (renderTok t).addSpace with
    | true => exact Or.inl (by simp)
    | false =>
      rcases noSpace_text t ha with ⟨htx, hpt⟩
      refine Or.inr ⟨by simp, Or.inl hpt, ?_⟩
      rw [htx, List.getLast?_concat]
      simp [quoteChar]
  constructor
  · -- single-token rendering produces a chunk text
    intro t hsize hwf
    cases t with
    | ident s sp => exact TokTxt.identT s.data
    | lit s sp => exact TokTxt.litT s.data
    | punct c sp => exact TokTxt.punctT c
    | group d sp ts =>
      have hwfg := hwf
      simp only [eraseTok, wfRTok, Bool.and_eq_true, decide_eq_true_eq] at hwfg
      have hwfl : wfRList (eraseList ts) = true := hwfg.1.2
      have hlast : lastNotQuote (eraseList ts) = true := hwfg.2
      cases ts with
      | nil =>
        have h0 := TokTxt.groupT d [] [] GrpC.nil
        exact h0
      | cons u ts2 =>
        have hszu : sizeOf u < n := by
          have h1 : sizeOf (TokenTree.group d sp (u :: ts2)) ≤ n := hsize
          simp at h1
          omega
        have hszl : sizeOf ts2 < n := by
          have h1 : sizeOf (TokenTree.group d sp (u :: ts2)) ≤ n := hsize
          simp at h1
          omega
        have hwfu : wfRTok (eraseTok u) = true := by
          simp only [eraseList, wfRList, Bool.and_eq_true] at hwfl
          exact hwfl.1
        have hwfl2 : wfRList (eraseList ts2) = true := by
          simp only [eraseList, wfRList, Bool.and_eq_true] at hwfl
          exact hwfl.2
        have htoku : TokTxt (eraseTok u) (renderTok u).text :=
          (IH (sizeOf u) hszu).1 u (Nat.le_refl _) hwfu
        have hmain := ((IH (sizeOf ts2) hszl).2 ts2
          (stepWith (renderTok u) initPrintState)
          (renderTok u).text
          (if (renderTok u).addSpace = true then [' '] else [])
          (eraseTok u) (renderTok u).stop
          (Nat.le_refl _) hwfl2
          (by rw [stepWith_init_output])
          (stepWith_prevEnd _ _)
          (by rw [stepWith_prevWasBrace]; exact fun hb => isBrace_isGroupR u hb)
          (by simpa using sepInvNew u []))
        rcases hmain with ⟨out, hout, hemit⟩
        rw [rsep_defSep u] at hout hemit
        have htrail : trailOf (defSep (eraseTok u)) (eraseList ts2) = [' '] := by
          apply trailOf_eq_space
          simpa [eraseList] using hlast
        rw [htrail] at hout
        have hcontent : (printLoop (u :: ts2) initPrintState).output
            = ((renderTok u).text ++ out) ++ [' '] := by
          show (printLoop ts2 (stepWith (renderTok u) initPrintState)).output = _
          rw [hout]
        have hdrop : (printLoop (u :: ts2) initPrintState).output.dropLast
            = (renderTok u).text ++ out := by
          rw [hcontent, List.dropLast_concat]
        have hfinal := TokTxt.groupT d (eraseTok u :: eraseList ts2)
          ((renderTok u).text ++ out) (GrpC.cons _ _ _ _ htoku hemit)
        have hgoal : eraseTok (TokenTree.group d sp (u :: ts2))
            = RTree.group d (eraseTok u :: eraseList ts2) := by
          simp [eraseTok, eraseList]
        rw [hgoal]
        have htext : (renderTok (TokenTree.group d sp (u :: ts2))).text
            = openChars d ++ ((renderTok u).text ++ out) ++ closeChars d := by
          show openChars d
              ++ (printLoop (u :: ts2) initPrintState).output.dropLast
              ++ closeChars d = _
          rw [hdrop]
        rw [htext]
        exact hfinal
  · -- the loop invariant
    intro ts st base sep pr pe hsize hwf hbase hpe hbrace hsep
    cases ts with
    | nil =>
      refine ⟨[], ?_, EmitsNT.nil sep pr⟩
      show st.output = base ++ [] ++ trailOf sep (eraseList [])
      rw [hbase]
      simp [trailOf, eraseList]
    | cons t ts' =>
      have hszt : sizeOf t < n := by
        have h1 : sizeOf (t :: ts') ≤ n := hsize
        simp at h1
        omega
      have hszl : sizeOf ts' < n := by
        have h1 : sizeOf (t :: ts') ≤ n := hsize
        simp at h1
        omega
      have hwft : wfRTok (eraseTok t) = true := by
        simp only [eraseList, wfRList, Bool.and_eq_true] at hwf
        exact hwf.1
      have hwfl : wfRList (eraseList ts') = true := by
        simp only [eraseList, wfRList, Bool.and_eq_true] at hwf
        exact hwf.2
      have htok : TokTxt (eraseTok t) (renderTok t).text :=
        (IH (sizeOf t) hszt).1 t (Nat.le_refl _) hwft
      have hso := stepWith_output (renderTok t) st pe hpe
      have hloop : printLoop (t :: ts') st
          = printLoop ts' (stepWith (renderTok t) st) := rfl
      by_cases hpop : ((renderTok t).isBrace || st.prevWasBrace) = true ∧
          (pe.line = (renderTok t).start.line ∧
            (renderTok t).start.column ≤ pe.column ∧
            st.output.getLast? = some ' ')
      · -- the separator space is popped
        have hsepsp : sep = [' '] := by
          rcases hsep with h | ⟨h0, _, hlast⟩
          · exact h
          · exfalso
            apply hlast
            have := hpop.2.2.2
            rw [hbase, h0, List.append_nil] at this
            exact this
        subst hsepsp
        have hdl : st.output.dropLast = base := by
          rw [hbase, List.dropLast_concat]
        rw [if_pos hpop, hdl] at hso
        have hmain := ((IH (sizeOf ts') hszl).2 ts'
          (stepWith (renderTok t) st)
          (base ++ (renderTok t).text)
          (if (renderTok t).addSpace = true then [' '] else [])
          (eraseTok t) (renderTok t).stop
          (Nat.le_refl _) hwfl
          (by rw [hso])
          (stepWith_prevEnd _ _)
          (by rw [stepWith_prevWasBrace]; exact fun hb => isBrace_isGroupR t hb)
          (sepInvNew t base))
        rcases hmain with ⟨out, hout, hemit⟩
        rw [rsep_defSep t] at hout hemit
        refine ⟨(renderTok t).text ++ out, ?_, ?_⟩
        · rw [hloop, hout]
          have : trailOf [' '] (eraseList (t :: ts'))
              = trailOf (defSep (eraseTok t)) (eraseList ts') := by
            simp only [eraseList]
            exact trailOf_cons _ _ _
          rw [this]
          simp
        · show EmitsNT [' '] pr (eraseList (t :: ts')) _
          simp only [eraseList]
          refine EmitsNT.drop pr (eraseTok t) (eraseList ts') _ out htok ?_ hemit
          rcases (by simpa [Bool.or_eq_true] using hpop.1 :
              (renderTok t).isBrace = true ∨ st.prevWasBrace = true) with hb | hb
          · exact Or.inr (isBrace_isGroupR t hb)
          · exact Or.inl (hbrace hb)
      · -- the separator is kept
        rw [if_neg hpop] at hso
        have hmain := ((IH (sizeOf ts') hszl).2 ts'
          (stepWith (renderTok t) st)
          (base ++ sep ++ (renderTok t).text)
          (if (renderTok t).addSpace = true then [' '] else [])
          (eraseTok t) (renderTok t).stop
          (Nat.le_refl _) hwfl
          (by rw [hso, hbase])
          (stepWith_prevEnd _ _)
          (by rw [stepWith_prevWasBrace]; exact fun hb => isBrace_isGroupR t hb)
          (sepInvNew t (base ++ sep)))
        rcases hmain with ⟨out, hout, hemit⟩
        rw [rsep_defSep t] at hout hemit
        refine ⟨sep ++ (renderTok t).text ++ out, ?_, ?_⟩
        · rw [hloop, hout]
          have : trailOf sep (eraseList (t :: ts'))
              = trailOf (defSep (eraseTok t)) (eraseList ts') := by
            simp only [eraseList]
            exact trailOf_cons _ _ _
          rw [this]
          simp
        · show EmitsNT sep pr (eraseList (t :: ts')) _
          simp only [eraseList]
          have hside : sep = [' '] ∨ isPunctR pr = true ∨ isGroupR pr = true := by
            rcases hsep with h | ⟨h0, h1, _⟩
            · exact Or.inl h
            · exact Or.inr h1
          have := EmitsNT.keep sep pr (eraseTok t) (eraseList ts')
            (renderTok t).text out htok hside hemit
          simpa using this

/-! ### Lexer fuel monotonicity -/

theorem lexMany_mono : ∀ (fuel : Nat) (cs : List Char)
    (v : List RTree × List Char),
    lexMany fuel cs = some v → lexMany (fuel + 1) cs = some v := by
  intro fuel
  induction fuel with
  | zero => intro cs v h; simp [lexMany] at h
  | succ f ih =>
    intro cs v h
    cases cs with
    | nil => simpa [lexMany] using h
    | cons c cs =>
      simp only [lexMany] at h ⊢
      by_cases hc1 : c = ' '
      · rw [if_pos hc1] at h ⊢
        exact ih _ _ h
      rw [if_neg hc1] at h ⊢
      by_cases hc2 : isCloseCh c = true
      · rw [if_pos hc2] at h ⊢
        exact h
      rw [if_neg hc2] at h ⊢
      by_cases hc3 : isOpenCh c = true
      · rw [if_pos hc3] at h ⊢
        cases hin : lexMany f cs with
        | none => rw [hin] at h; simp at h
        | some p =>
          obtain ⟨inner, rest⟩ := p
          simp only [hin] at h
          simp only [ih _ _ hin]
          cases rest with
          | nil => simp at h
          | cons d rest2 =>
            simp only at h ⊢
            by_cases hd : d = closeFor c
            · rw [if_pos hd] at h ⊢
              cases hin2 : lexMany f rest2 with
              | none => rw [hin2] at h; simp at h
              | some q =>
                simp only [hin2] at h
                simp only [ih _ _ hin2]
                exact h
            · rw [if_neg hd] at h
              simp at h
      rw [if_neg hc3] at h ⊢
      by_cases hc4 : identStartCh c = true
      · rw [if_pos hc4] at h ⊢
        cases hin : lexMany f ((c :: cs).dropWhile identCh) with
        | none => rw [hin] at h; simp at h
        | some p =>
          simp only [hin] at h
          simp only [ih _ _ hin]
          exact h
      rw [if_neg hc4] at h ⊢
      by_cases hc5 : c.isDigit = true
      · rw [if_pos hc5] at h ⊢
        cases hin : lexMany f ((c :: cs).dropWhile litCh) with
        | none => rw [hin] at h; simp at h
        | some p =>
          simp only [hin] at h
          simp only [ih _ _ hin]
          exact h
      rw [if_neg hc5] at h ⊢
      cases hin : lexMany f cs with
      | none => rw [hin] at h; simp at h
      | some p =>
        simp only [hin] at h
        simp only [ih _ _ hin]
        exact h

theorem lexMany_mono_le {fuel g : Nat} {cs : List Char}
    {v : List RTree × List Char}
    (h : lexMany fuel cs = some v) (hle : fuel ≤ g) :
    lexMany g cs = some v := by
  obtain ⟨k, rfl⟩ := Nat.exists_eq_add_of_le hle
  clear hle
  induction k with
  | zero => simpa using h
  | succ k ih =>
    rw [show fuel + (k + 1) = (fuel + k) + 1 from rfl]
    exact lexMany_mono _ _ _ ih

/-- The lexer at its canonical fuel (`length + 1` always suffices for the
strings the serializer produces). -/
def lexC (cs : List Char) : Option (List RTree × List Char) :=
  lexMany (cs.length + 1) cs

/-- The text that follows a token may not start with a run character (so an
identifier or literal run cannot leak into it). -/
def safeAfter : List Char → Prop
  | [] => True
  | c :: _ => litCh c = false

/-- The boundary condition a token's trailing context must satisfy: only
identifier and literal runs are extendable. -/
def bOK : RTree → List Char → Prop
  | .ident _, tl => tailHeadNot identCh tl
  | .lit _, tl => tailHeadNot litCh tl
  | _, _ => True

/-- The context after a group interior: a closing delimiter. -/
def headClose : List Char → Prop
  | [] => False
  | c :: _ => isCloseCh c = true

theorem identCh_litCh {c : Char} (h : identCh c = true) : litCh c = true := by
  simp [litCh, h]

theorem litCh_false_identCh {c : Char} (h : litCh c = false) :
    identCh c = false := by
  by_cases h2 : identCh c = true
  · rw [identCh_litCh h2] at h
    exact absurd h (by simp)
  · simpa using h2

theorem safeAfter_bOK (u : RTree) (tl : List Char) (h : safeAfter tl) :
    bOK u tl := by
  cases u with
  | ident s =>
    cases tl with
    | nil => trivial
    | cons c r => exact litCh_false_identCh h
  | lit s =>
    cases tl with
    | nil => trivial
    | cons c r => exact h
  | group d ts => trivial
  | punct c => trivial

theorem identStart_identCh {c : Char} (h : identStartCh c = true) :
    identCh c = true := by
  simp only [identStartCh, Bool.or_eq_true] at h
  simp only [identCh, Bool.or_eq_true]
  rcases h with h | h
  · exact Or.inl (Or.inl h)
  · exact Or.inr h

theorem digit_litCh {c : Char} (h : c.isDigit = true) : litCh c = true := by
  simp [litCh, identCh, h]

theorem close_ne_space {c : Char} (h : isCloseCh c = true) : ¬ c = ' ' := by
  rcases (by simpa [isCloseCh] using h : (c = ')' ∨ c = ']') ∨ c = braceR)
    with (rfl | rfl) | rfl <;> decide

theorem defSep_cases (u : RTree) : defSep u = [' '] ∨ defSep u = [] := by
  cases u with
  | punct c => by_cases hc : c = quoteChar <;> simp [defSep, hc]
  | group d ts => exact Or.inl rfl
  | ident s => exact Or.inl rfl
  | lit s => exact Or.inl rfl

theorem openChars_safe (d : Delim) (hd : d ≠ Delim.nodelim) :
    ∃ o cl, openChars d = [o] ∧ closeChars d = [cl] ∧ isOpenCh o = true ∧
      closeFor o = cl ∧ delimFor o = d ∧ isCloseCh cl = true ∧
      litCh o = false ∧ ¬ o = ' ' ∧ ¬ isCloseCh o = true := by
  cases d with
  | brace =>
    exact ⟨'{', braceR, rfl, rfl, by decide, by decide, by decide, by decide,
      by decide, by decide, by decide⟩
  | paren =>
    exact ⟨'(', ')', rfl, rfl, by decide, by decide, by decide, by decide,
      by decide, by decide, by decide⟩
  | bracket =>
    exact ⟨'[', ']', rfl, rfl, by decide, by decide, by decide, by decide,
      by decide, by decide, by decide⟩
  | nodelim => exact absurd rfl hd

/-- The first character after a pending separator is never a run character
when the previous token is neither a punct nor a group. -/
theorem firstOK {sep : List Char} {p u : RTree} {rts : List RTree}
    {out : List Char}
    (h : EmitsNT sep p (u :: rts) out) (hwf : wfRTok u = true)
    (tl : List Char) (htl : safeAfter tl)
    (hp1 : isGroupR p = false) (hp2 : isPunctR p = false) :
    safeAfter (out ++ tl) := by
  cases h with
  | keep sep p u rest s out htok hside hrest =>
    have hsep : sep = [' '] := by
      rcases hside with h | h | h
      · exact h
      · rw [h] at hp2; exact absurd hp2 (by simp)
      · rw [h] at hp1; exact absurd hp1 (by simp)
    subst hsep
    have he : ([' '] ++ s ++ out) ++ tl = ' ' :: ((s ++ out) ++ tl) := by simp
    rw [he]
    show litCh ' ' = false
    decide
  | drop p u rest s out htok hside hrest =>
    have hgu : isGroupR u = true := by
      rcases hside with h | h
      · rw [h] at hp1; exact absurd hp1 (by simp)
      · exact h
    cases htok with
    | identT s0 => simp [isGroupR] at hgu
    | litT s0 => simp [isGroupR] at hgu
    | punctT c0 => simp [isGroupR] at hgu
    | groupT d ts0 cs0 hg =>
      have hd : d ≠ Delim.nodelim := by
        simp only [wfRTok, Bool.and_eq_true, decide_eq_true_eq] at hwf
        exact hwf.1.1
      obtain ⟨o, cl, ho, hcl, _, _, _, _, hlit, _, _⟩ := openChars_safe d hd
      rw [ho]
      simpa [safeAfter] using hlit

theorem bOK_chain {sep : List Char} {u : RTree} {rest : List RTree}
    {out : List Char}
    (h : EmitsNT sep u rest out) (hwf : wfRList rest = true)
    (tl : List Char) (htl : safeAfter tl) : bOK u (out ++ tl) := by
  cases rest with
  | nil =>
    cases h with
    | nil => exact safeAfter_bOK u tl htl
  | cons v rest2 =>
    have hwfv : wfRTok v = true := by
      simp only [wfRList, Bool.and_eq_true] at hwf
      exact hwf.1
    cases u with
    | group d ts => trivial
    | punct c => trivial
    | ident s => exact safeAfter_bOK _ _ (firstOK h hwfv tl htl rfl rfl)
    | lit s => exact safeAfter_bOK _ _ (firstOK h hwfv tl htl rfl rfl)

theorem bool_neg {b : Bool} (h : b = false) : ¬ b = true := by simp [h]

theorem lexC_close {tl : List Char} (h : headClose tl) :
    lexC tl = some ([], tl) := by
  cases tl with
  | nil => exact h.elim
  | cons c r =>
    have hc : isCloseCh c = true := h
    show lexMany ((c :: r).length + 1) (c :: r) = some ([], c :: r)
    rw [show (c :: r).length + 1 = (r.length + 1) + 1 from by simp]
    simp only [lexMany]
    rw [if_neg (close_ne_space hc), if_pos hc]

theorem headClose_safe {tl : List Char} (h : headClose tl) : safeAfter tl := by
  cases tl with
  | nil => trivial
  | cons c r => exact (close_not_run h).2

theorem lexMany_space (fuel : Nat) (cs : List Char) :
    lexMany (fuel + 1) (' ' :: cs) = lexMany fuel cs := by
  simp [lexMany]

theorem lex_main : ∀ n : Nat,
    (∀ (u : RTree) (s : List Char), TokTxt u s → sizeOf u ≤ n →
      wfRTok u = true → ∀ (tl : List Char) (ts : List RTree) (r : List Char),
      bOK u tl → lexC tl = some (ts, r) →
      lexC (s ++ tl) = some (u :: ts, r)) ∧
    (∀ (ts0 : List RTree) (cs : List Char), GrpC ts0 cs → sizeOf ts0 ≤ n →
      wfRList ts0 = true → ∀ tl : List Char, headClose tl →
      lexC (cs ++ tl) = some (ts0, tl)) ∧
    (∀ (sep : List Char) (p : RTree) (rts : List RTree) (out : List Char),
      EmitsNT sep p rts out → sizeOf rts ≤ n → wfRList rts = true →
      (sep = [' '] ∨ sep = []) →
      ∀ (tl : List Char) (ts : List RTree) (r : List Char),
      safeAfter tl → lexC tl = some (ts, r) →
      lexC (out ++ tl) = some (rts ++ ts, r)) := by
  intro n
  induction n using Nat.strong_induction_on with
  | _ n IH =>
  constructor
  · -- a single token followed by a boundary-safe context
    intro u s htok hsize hwf tl ts r hb hC
    cases htok with
    | identT s =>
      cases s with
      | nil => simp [wfRTok, identText] at hwf
      | cons c cs =>
        have hih : identStartCh c = true ∧ cs.all identCh = true := by
          simpa [wfRTok, identText, Bool.and_eq_true] using hwf
        obtain ⟨hns, hncl, hnop⟩ := identStart_not_special hih.1
        have hall : (c :: cs).all identCh = true := by
          simp [List.all_cons, identStart_identCh hih.1, hih.2]
        have hrun := run_split identCh (c :: cs) tl hall hb
        rw [List.cons_append] at hrun
        show lexMany (((c :: cs) ++ tl).length + 1) ((c :: cs) ++ tl) = _
        rw [List.cons_append,
          show (c :: (cs ++ tl)).length + 1 = (cs.length + tl.length + 1) + 1
            from by simp]
        have hrec : lexMany (cs.length + tl.length + 1) tl = some (ts, r) :=
          lexMany_mono_le hC (by omega)
        simp only [lexMany]
        rw [if_neg hns, if_neg (bool_neg hncl), if_neg (bool_neg hnop),
          if_pos hih.1]
        simp only [hrun.1, hrun.2, hrec]
    | litT s =>
      cases s with
      | nil => simp [wfRTok, litText] at hwf
      | cons c cs =>
        have hih : c.isDigit = true ∧ cs.all litCh = true := by
          simpa [wfRTok, litText, Bool.and_eq_true] using hwf
        obtain ⟨hns, hncl, hnop, hnid⟩ := digit_not_special hih.1
        have hall : (c :: cs).all litCh = true := by
          simp [List.all_cons, digit_litCh hih.1, hih.2]
        have hrun := run_split litCh (c :: cs) tl hall hb
        rw [List.cons_append] at hrun
        show lexMany (((c :: cs) ++ tl).length + 1) ((c :: cs) ++ tl) = _
        rw [List.cons_append,
          show (c :: (cs ++ tl)).length + 1 = (cs.length + tl.length + 1) + 1
            from by simp]
        have hrec : lexMany (cs.length + tl.length + 1) tl = some (ts, r) :=
          lexMany_mono_le hC (by omega)
        simp only [lexMany]
        rw [if_neg hns, if_neg (bool_neg hncl), if_neg (bool_neg hnop),
          if_neg (bool_neg hnid), if_pos hih.1]
        simp only [hrun.1, hrun.2, hrec]
    | punctT c =>
      have hpk : punctOk c = true := hwf
      obtain ⟨hns, hncl, hnop, hnid, hndg⟩ := punct_not_special hpk
      show lexMany (([c] ++ tl).length + 1) ([c] ++ tl) = _
      rw [List.cons_append, List.nil_append,
        show (c :: tl).length + 1 = (tl.length + 1) + 1 from by simp]
      simp only [lexMany]
      rw [if_neg hns, if_neg (bool_neg hncl), if_neg (bool_neg hnop),
        if_neg (bool_neg hnid), if_neg (bool_neg hndg)]
      have hC2 : lexMany (tl.length + 1) tl = some (ts, r) := hC
      simp only [hC2]
    | groupT d ts0 cs0 hg =>
      have hwfg := hwf
      simp only [wfRTok, Bool.and_eq_true, decide_eq_true_eq] at hwfg
      have hd : d ≠ Delim.nodelim := hwfg.1.1
      have hwfl : wfRList ts0 = true := hwfg.1.2
      obtain ⟨o, cl, ho, hcl, hop, hcf, hdf, hclc, _, hnso, hnco⟩ :=
        openChars_safe d hd
      have hszl : sizeOf ts0 < n := by
        have h1 : sizeOf (RTree.group d ts0) ≤ n := hsize
        simp at h1
        omega
      have hin : lexC (cs0 ++ (cl :: tl)) = some (ts0, cl :: tl) :=
        (IH (sizeOf ts0) hszl).2.1 ts0 cs0 hg (Nat.le_refl _) hwfl
          (cl :: tl) hclc
      rw [ho, hcl]
      show lexMany ((([o] ++ cs0 ++ [cl]) ++ tl).length + 1)
        (([o] ++ cs0 ++ [cl]) ++ tl) = _
      rw [show ([o] ++ cs0 ++ [cl]) ++ tl = o :: (cs0 ++ cl :: tl) from by simp,
        show (o :: (cs0 ++ cl :: tl)).length + 1
            = (cs0.length + tl.length + 2) + 1 from by simp; omega]
      have hin2 : lexMany (cs0.length + tl.length + 2) (cs0 ++ cl :: tl)
          = some (ts0, cl :: tl) :=
        lexMany_mono_le hin (by simp; omega)
      have hrec : lexMany (cs0.length + tl.length + 2) tl = some (ts, r) :=
        lexMany_mono_le hC (by omega)
      simp only [lexMany]
      rw [if_neg hnso, if_neg hnco, if_pos hop]
      simp only [hin2]
      rw [if_pos hcf.symm]
      simp only [hrec, hdf]
  constructor
  · -- a group interior followed by its closing delimiter
    intro ts0 cs hg hsize hwf tl hclose
    cases hg with
    | nil =>
      rw [List.nil_append]
      exact lexC_close hclose
    | cons u rest s out htok hemit =>
      have hszu : sizeOf u < n := by
        have h1 : sizeOf (u :: rest) ≤ n := hsize
        simp at h1
        omega
      have hszr : sizeOf rest < n := by
        have h1 : sizeOf (u :: rest) ≤ n := hsize
        simp at h1
        omega
      have hwfu : wfRTok u = true := by
        simp only [wfRList, Bool.and_eq_true] at hwf
        exact hwf.1
      have hwfr : wfRList rest = true := by
        simp only [wfRList, Bool.and_eq_true] at hwf
        exact hwf.2
      have hsafe : safeAfter tl := headClose_safe hclose
      have hE := (IH (sizeOf rest) hszr).2.2 (defSep u) u rest out hemit
        (Nat.le_refl _) hwfr (defSep_cases u) tl [] tl hsafe
        (lexC_close hclose)
      rw [List.append_nil] at hE
      have hb : bOK u (out ++ tl) := bOK_chain hemit hwfr tl hsafe
      have hT := (IH (sizeOf u) hszu).1 u s htok (Nat.le_refl _) hwfu
        (out ++ tl) rest tl hb hE
      rw [List.append_assoc]
      exact hT
  · -- a token list after a pending separator
    intro sep p rts out hemit hsize hwf hsep tl ts r hsafe hC
    cases hemit with
    | nil =>
      rw [List.nil_append, List.nil_append]
      exact hC
    | keep sep p u rest s out htok hside hrest =>
      have hszu : sizeOf u < n := by
        have h1 : sizeOf (u :: rest) ≤ n := hsize
        simp at h1
        omega
      have hszr : sizeOf rest < n := by
        have h1 : sizeOf (u :: rest) ≤ n := hsize
        simp at h1
        omega
      have hwfu : wfRTok u = true := by
        simp only [wfRList, Bool.and_eq_true] at hwf
        exact hwf.1
      have hwfr : wfRList rest = true := by
        simp only [wfRList, Bool.and_eq_true] at hwf
        exact hwf.2
      have hE := (IH (sizeOf rest) hszr).2.2 (defSep u) u rest out hrest
        (Nat.le_refl _) hwfr (defSep_cases u) tl ts r hsafe hC
      have hb : bOK u (out ++ tl) := bOK_chain hrest hwfr tl hsafe
      have hT := (IH (sizeOf u) hszu).1 u s htok (Nat.le_refl _) hwfu
        (out ++ tl) (rest ++ ts) r hb hE
      rcases hsep with hsp | hsp
      · subst hsp
        rw [show ([' '] ++ s ++ out) ++ tl = ' ' :: (s ++ (out ++ tl))
          from by simp]
        show lexMany ((' ' :: (s ++ (out ++ tl))).length + 1) _ = _
        rw [show (' ' :: (s ++ (out ++ tl))).length + 1
            = ((s ++ (out ++ tl)).length + 1) + 1 from by simp]
        rw [lexMany_space]
        show lexC (s ++ (out ++ tl)) = _
        rw [hT]
        simp
      · subst hsp
        rw [show (([] : List Char) ++ s ++ out) ++ tl = s ++ (out ++ tl)
          from by simp]
        rw [hT]
        simp
    | drop p u rest s out htok hside hrest =>
      have hszu : sizeOf u < n := by
        have h1 : sizeOf (u :: rest) ≤ n := hsize
        simp at h1
        omega
      have hszr : sizeOf rest < n := by
        have h1 : sizeOf (u :: rest) ≤ n := hsize
        simp at h1
        omega
      have hwfu : wfRTok u = true := by
        simp only [wfRList, Bool.and_eq_true] at hwf
        exact hwf.1
      have hwfr : wfRList rest = true := by
        simp only [wfRList, Bool.and_eq_true] at hwf
        exact hwf.2
      have hE := (IH (sizeOf rest) hszr).2.2 (defSep u) u rest out hrest
        (Nat.le_refl _) hwfr (defSep_cases u) tl ts r hsafe hC
      have hb : bOK u (out ++ tl) := bOK_chain hrest hwfr tl hsafe
      have hT := (IH (sizeOf u) hszu).1 u s htok (Nat.le_refl _) hwfu
        (out ++ tl) (rest ++ ts) r hb hE
      rw [show (s ++ out) ++ tl = s ++ (out ++ tl) from by simp]
      rw [hT]
      simp

theorem trailOf_defSep_cases (u : RTree) (rts : List RTree) :
    trailOf (defSep u) rts = [' '] ∨ trailOf (defSep u) rts = [] := by
  unfold trailOf
  cases hg : rts.getLast? with
  | none => exact defSep_cases u
  | some z => exact defSep_cases z

theorem safeAfter_trail {tr : List Char} (h : tr = [' '] ∨ tr = []) :
    safeAfter tr := by
  rcases h with rfl | rfl
  · show litCh ' ' = false
    decide
  · trivial

theorem lexC_trail {tr : List Char} (h : tr = [' '] ∨ tr = []) :
    lexC tr = some ([], []) := by
  rcases h with rfl | rfl <;> rfl

/-- C1 (amended): re-parsing the text produced by `print_tokens_internal` on
any token list whose erased image is lexically well formed recovers exactly
the erased token trees, with nothing left over — the serializer round-trips
up to spans and whitespace.  (The claim as stated, about `print_tokens`, is
refuted by `c1_counterexample`: the brace doubling applied on top of the
internal serializer breaks the round trip even without adjacent braces.) -/
theorem c1_round_trip (ts : List TokenTree)
    (hwf : wfRList (eraseList ts) = true) :
    lexMany ((printTokensInternal ts).output.length + 1)
        (printTokensInternal ts).output
      = some (eraseList ts, []) := by
  show lexC (printTokensInternal ts).output = some (eraseList ts, [])
  cases ts with
  | nil => rfl
  | cons t ts' =>
    have hwft : wfRTok (eraseTok t) = true := by
      simp only [eraseList, wfRList, Bool.and_eq_true] at hwf
      exact hwf.1
    have hwfl : wfRList (eraseList ts') = true := by
      simp only [eraseList, wfRList, Bool.and_eq_true] at hwf
      exact hwf.2
    have htok : TokTxt (eraseTok t) (renderTok t).text :=
      (print_chunks_main (sizeOf t)).1 t (Nat.le_refl _) hwft
    have hmain := (print_chunks_main (sizeOf ts')).2 ts'
      (stepWith (renderTok t) initPrintState)
      (renderTok t).text
      (if (renderTok t).addSpace = true then [' '] else [])
      (eraseTok t) (renderTok t).stop
      (Nat.le_refl _) hwfl
      (by rw [stepWith_init_output])
      (stepWith_prevEnd _ _)
      (by rw [stepWith_prevWasBrace]; exact fun hb => isBrace_isGroupR t hb)
      (by
        cases ha : (renderTok t).addSpace with
        | true => exact Or.inl (by simp)
        | false =>
          rcases noSpace_text t ha with ⟨htx, hpt⟩
          refine Or.inr ⟨by simp, Or.inl hpt, ?_⟩
          rw [htx]
          decide)
    rcases hmain with ⟨out, hout, hemit⟩
    rw [rsep_defSep t] at hout hemit
    have hfull : (printTokensInternal (t :: ts')).output
        = (renderTok t).text ++ out
            ++ trailOf (defSep (eraseTok t)) (eraseList ts') := by
      show (printLoop ts' (stepWith (renderTok t) initPrintState)).output = _
      exact hout
    have htrc := trailOf_defSep_cases (eraseTok t) (eraseList ts')
    have hE := (lex_main (sizeOf (eraseList ts'))).2.2 (defSep (eraseTok t))
      (eraseTok t) (eraseList ts') out hemit (Nat.le_refl _) hwfl
      (defSep_cases _) (trailOf (defSep (eraseTok t)) (eraseList ts')) [] []
      (safeAfter_trail htrc) (lexC_trail htrc)
    rw [List.append_nil] at hE
    have hb : bOK (eraseTok t)
        (out ++ trailOf (defSep (eraseTok t)) (eraseList ts')) :=
      bOK_chain hemit hwfl _ (safeAfter_trail htrc)
    have hT := (lex_main (sizeOf (eraseTok t))).1 (eraseTok t)
      (renderTok t).text htok (Nat.le_refl _) hwft
      (out ++ trailOf (defSep (eraseTok t)) (eraseList ts'))
      (eraseList ts') [] hb hE
    rw [hfull, List.append_assoc]
    exact hT

/-- C1 counterexample: for the single brace group `{x}` — whose serialized
text has no adjacent braces — the full `print_tokens` string is `{{x}} `,
and re-parsing it yields a doubly nested brace group, not a tree equal to
the input; the round trip only holds for the internal serializer text. -/
theorem c1_counterexample :
    noAdjBraces (printTokensInternal
        [TokenTree.group Delim.brace callSiteSpan
          [TokenTree.ident "x" callSiteSpan]]).output = true ∧
    printTokens
        [TokenTree.group Delim.brace callSiteSpan
          [TokenTree.ident "x" callSiteSpan]]
      = [braceL, braceL, 'x', braceR, braceR, ' '] ∧
    lexMany 7 [braceL, braceL, 'x', braceR, braceR, ' ']
      = some ([RTree.group Delim.brace
          [RTree.group Delim.brace [RTree.ident ['x']]]], []) ∧
    eraseList
        [TokenTree.group Delim.brace callSiteSpan
          [TokenTree.ident "x" callSiteSpan]]
      = [RTree.group Delim.brace [RTree.ident ['x']]] ∧
    [RTree.group Delim.brace [RTree.group Delim.brace [RTree.ident ['x']]]]
      ≠ [RTree.group Delim.brace [RTree.ident ['x']]] := by
  refine ⟨by decide, rfl, rfl, rfl, ?_⟩
  intro h
  simp at h

/-- Witness for C1 at the token list of `f {x}`. -/
theorem c1_round_trip_witness :
    wfRList (eraseList
        [TokenTree.ident "f" callSiteSpan,
          TokenTree.group Delim.brace callSiteSpan
            [TokenTree.ident "x" callSiteSpan]]) = true ∧
    lexMany ((printTokensInternal
          [TokenTree.ident "f" callSiteSpan,
            TokenTree.group Delim.brace callSiteSpan
              [TokenTree.ident "x" callSiteSpan]]).output.length + 1)
        (printTokensInternal
          [TokenTree.ident "f" callSiteSpan,
            TokenTree.group Delim.brace callSiteSpan
              [TokenTree.ident "x" callSiteSpan]]).output
      = some (eraseList
          [TokenTree.ident "f" callSiteSpan,
            TokenTree.group Delim.brace callSiteSpan
              [TokenTree.ident "x" callSiteSpan]], []) :=
  ⟨by decide,
    c1_round_trip
      [TokenTree.ident "f" callSiteSpan,
        TokenTree.group Delim.brace callSiteSpan
          [TokenTree.ident "x" callSiteSpan]] (by decide)⟩

/-! ### Lemmas about substring search -/

theorem findSubstrIdx_some {pat s : List Char} {i : Nat}
    (h : findSubstrIdx pat s = some i) :
    pat.isPrefixOf (s.drop i) = true ∧ ∀ j, j < i → pat.isPrefixOf (s.drop j) = false := by
  induction s generalizing i with
  | nil =>
    simp only [findSubstrIdx] at h
    split at h
    · cases h
      simp_all
    · cases h
  | cons c rest ih =>
    simp only [findSubstrIdx] at h
    split at h
    · cases h
      simp_all
    · rename_i hnp
      rcases ho : findSubstrIdx pat rest with _ | i'
      · rw [ho] at h; cases h
      · rw [ho] at h
        simp only [Option.map_some'] at h
        cases h
        rcases ih ho with ⟨h1, h2⟩
        refine ⟨by simpa using h1, ?_⟩
        intro j hj
        cases j with
        | zero => simpa using Bool.eq_false_iff.mpr (fun hc => hnp hc)
        | succ j' => simpa using h2 j' (by omega)

theorem findSubstrIdx_none {pat s : List Char}
    (h : findSubstrIdx pat s = none) :
    ∀ j, pat.isPrefixOf (s.drop j) = false := by
  induction s with
  | nil =>
    simp only [findSubstrIdx] at h
    split at h
    · cases h
    · intro j
      simpa using Bool.eq_false_iff.mpr (by rename_i hnp; exact fun hc => hnp hc)
  | cons c rest ih =>
    simp only [findSubstrIdx] at h
    split at h
    · cases h
    · rename_i hnp
      rcases ho : findSubstrIdx pat rest with _ | i'
      · intro j
        cases j with
        | zero => simpa using Bool.eq_false_iff.mpr (fun hc => hnp hc)
        | succ j' => simpa using ih ho j'
      · rw [ho] at h; cases h

/-- Claim C7: when the build-and-run subprocess exits non-zero,
`run_cargo_project` forwards raw stderr to the error stream before any
failure; if stderr contains the runtime-failure marker the failure is a
runtime panic carrying the text from the leftmost marker occurrence onward,
otherwise a generic build failure; on zero exit the full stdout is
returned. -/
theorem c7_run_cargo_project (success : Bool) (stdout stderr : List Char) :
    (success = true → runCargoProject success stdout stderr = ([], .ok stdout)) ∧
    (success = false →
      (runCargoProject success stdout stderr).1 = [.eprint stderr] ∧
      ((∃ i, findSubstrIdx panickedMarker stderr = some i ∧
          panickedMarker.isPrefixOf (stderr.drop i) = true ∧
          (∀ j, j < i → panickedMarker.isPrefixOf (stderr.drop j) = false) ∧
          (runCargoProject success stdout stderr).2 = .panicked (stderr.drop i)) ∨
        (findSubstrIdx panickedMarker stderr = none ∧
          (∀ j, panickedMarker.isPrefixOf (stderr.drop j) = false) ∧
          (runCargoProject success stdout stderr).2
            = .buildFailed compilationFailedMsg))) := by
  constructor
  · intro hs
    subst hs
    simp [runCargoProject]
  · intro hs
    subst hs
    rcases ho : findSubstrIdx panickedMarker stderr with _ | i
    · refine ⟨by simp [runCargoProject, ho], Or.inr ⟨rfl, findSubstrIdx_none ho, ?_⟩⟩
      simp [runCargoProject, ho]
    · refine ⟨by simp [runCargoProject, ho], Or.inl ⟨i, rfl,
        (findSubstrIdx_some ho).1, (findSubstrIdx_some ho).2, ?_⟩⟩
      simp [runCargoProject, ho]

/-- Witness for C7 at a concrete failing run whose stderr carries the
runtime-failure marker. -/
theorem c7_run_cargo_project_witness :
    (false = false) ∧
    (runCargoProject false [] (panickedMarker ++ " at main.rs".data)).1
      = [.eprint (panickedMarker ++ " at main.rs".data)] := by
  refine ⟨rfl, ?_⟩
  exact ((c7_run_cargo_project false [] (panickedMarker ++ " at main.rs".data)).2 rfl).1

/-! ### Claims C8 and C9: the pattern-compiler error path and the silent
fallback -/

/-- Claim C8, counterexample: for the canonical input the claim describes (a
non-empty typed parameter list whose single parameter has an underivable
type `Foo`, neither a raw-fragment nor an explicit-pattern form),
`parse_args` does yield a result, so the `WRONG_ARGS` error is not
surfaced. -/
theorem c8_counterexample :
    parseArgType "x" (.path0 ["Foo"]) = none ∧
    (parseArgs [.typed (.identPat "x") (.path0 ["Foo"])]).isSome = true ∧
    wrongArgsSurfaced [.typed (.identPat "x") (.path0 ["Foo"])] = false := by
  refine ⟨by decide, by decide, by decide⟩

/-- Claim C8, amended: `parse_args` yields a result on every argument list
(the fallback branch always succeeds), so the `WRONG_ARGS` configuration
error attached to its `None` case is never surfaced through it. -/
theorem c8_parse_args_total (args : List FnArg) :
    (parseArgs args).isSome = true ∧ wrongArgsSurfaced args = false := by
  have hs : (parseArgs args).isSome = true := by
    cases args with
    | nil => decide
    | cons arg rest =>
      simp only [parseArgs]
      cases parseArgsForPattern arg with
      | some a => simp
      | none =>
        cases parseArgsForTokenStream arg with
        | some a => simp
        | none => simp
  refine ⟨hs, ?_⟩
  unfold wrongArgsSurfaced
  rcases h : parseArgs args with _ | v
  · rw [h] at hs; simp at hs
  · simp

/-- Claim C9: a typed parameter whose declared type has no derivable
pattern (and is not the `TokenStream` raw-fragment form) is silently
omitted: `parse_args` still succeeds, the built pattern gets no piece for
it, and its `let` statement has no decode expression. -/
theorem c9_unsupported_type_silent (nm : String) (ty : SynType) (rest : List FnArg)
    (h : parseArgType nm ty = none) (hts : isTokenStreamTy ty = false) :
    parseArgs [.typed (.identPat nm) ty]
        = some (.pattern (.built []), [⟨nm, ty, none⟩]) ∧
    (∀ isFirst,
      parseArgsFallback (.typed (.identPat nm) ty :: rest) isFirst
        = ((if isFirst then [] else [.comma]) ++ (parseArgsFallback rest false).1,
            ⟨nm, ty, none⟩ :: (parseArgsFallback rest false).2)) := by
  constructor
  · simp [parseArgs, parseArgsForPattern, parseArgsForTokenStream, hts,
      parseArgsFallback, h]
  · intro isFirst
    simp [parseArgsFallback, h]

/-- Witness for C9 at the unsupported concrete type `f32`. -/
theorem c9_unsupported_type_silent_witness :
    parseArgType "x" (.path0 ["f32"]) = none ∧
    isTokenStreamTy (.path0 ["f32"]) = false ∧
    parseArgs [.typed (.identPat "x") (.path0 ["f32"])]
      = some (.pattern (.built []), [⟨"x", .path0 ["f32"], none⟩]) :=
  ⟨by decide, by decide,
    (c9_unsupported_type_silent "x" (.path0 ["f32"]) [] (by decide) (by decide)).1⟩

/-! ### Claim C5: patterns and decodes per declared parameter type -/

/-- Claim C5, counterexample: a top-level string-slice parameter (`&str`, a
`syn::Type::Reference`) yields no pattern at all from `parse_arg_type`,
because only path types are inspected there; the claim asserts it yields a
literal-or-expression fragment pattern. -/
theorem c5_counterexample :
    parseArgType "s" (.ref (.path0 ["str"])) = none ∧
    parseInnerType "s" (.ref (.path0 ["str"]))
      = some (.exprFrag "s_arg", .stringifyStr "s_arg") := by
  refine ⟨by decide, by decide⟩

/-- Claim C5, amended: integer parameters of any width give a numeric
literal fragment decoded as itself; a `String` parameter gives an
expression fragment decoded by stringification; a string slice gives such a
pattern only through `parse_inner_type` (e.g. as the element of a `Vec`),
while at top level it yields nothing; `Vec` of a supported scalar gives the
bracketed comma repetition collecting the repeated fragments. -/
theorem c5_arg_type_patterns (nm : String) :
    (∀ t, t ∈ intIdents →
      parseArgType nm (.path0 [t])
        = some (.litFrag (nm ++ "_arg"), .varRef (nm ++ "_arg"))) ∧
    (parseArgType nm (.path0 ["String"])
        = some (.exprFrag (nm ++ "_arg"), .stringifyToString (nm ++ "_arg"))) ∧
    (parseInnerType nm (.ref (.path0 ["str"]))
        = some (.exprFrag (nm ++ "_arg"), .stringifyStr (nm ++ "_arg")) ∧
      parseArgType nm (.ref (.path0 ["str"])) = none) ∧
    (∀ inner p c, parseInnerType nm inner = some (p, c) →
      parseArgType nm (.path1 ["Vec"] inner) = some (.vecOf p, .collectVec c)) := by
  refine ⟨?_, ?_, ⟨?_, ?_⟩, ?_⟩
  · intro t ht
    fin_cases ht <;> simp [parseArgType, parseInnerType, intIdents]
  · simp [parseArgType, parseInnerType]
  · simp [parseInnerType]
  · simp [parseArgType]
  · intro inner p c h
    simp [parseArgType, h]

/-- Witness for C5 at `u32`, `String` and `Vec<u32>`. -/
theorem c5_arg_type_patterns_witness :
    parseArgType "n" (.path0 ["u32"]) = some (.litFrag "n_arg", .varRef "n_arg") ∧
    parseArgType "v" (.path1 ["Vec"] (.path0 ["u32"]))
      = some (.vecOf (.litFrag "v_arg"), .collectVec (.varRef "v_arg")) :=
  ⟨(c5_arg_type_patterns "n").1 "u32" (by decide),
    (c5_arg_type_patterns "v").2.2.2 (.path0 ["u32"]) (.litFrag "v_arg")
      (.varRef "v_arg") (by decide)⟩

/-! ### Claim C10: deterministic content-derived project name -/

/-- Lowercase hexadecimal digit test. -/
def isHexLower (c : Char) : Bool := hexDigitChars.contains c

theorem toHexDigit_isHexLower (m : Nat) (h : m < 16) :
    isHexLower (toHexDigit m) = true := by
  interval_cases m <;> decide

theorem natToHex16_length (n : Nat) : (natToHex16 n).length = 16 := by
  simp [natToHex16]

theorem natToHex16_all_hex (n : Nat) : (natToHex16 n).all isHexLower = true := by
  simp only [natToHex16, List.all_eq_true]
  intro c hc
  rcases List.mem_map.mp hc with ⟨i, _, rfl⟩
  exact toHexDigit_isHexLower _ (Nat.mod_lt _ (by omega))

/-- Claim C10: the project name is `project_` followed by exactly sixteen
lowercase hexadecimal digits, it is a function of the invocation body text
alone, and in stable mode the working-directory address depends only on the
body text (through its hash). -/
theorem c10_project_name (hashFn : String → Nat) (s : String) :
    (projectNameFromInput hashFn s).take 8 = "project_".data ∧
    ((projectNameFromInput hashFn s).drop 8).length = 16 ∧
    ((projectNameFromInput hashFn s).drop 8).all isHexLower = true ∧
    (∀ s₂, s = s₂ → projectNameFromInput hashFn s = projectNameFromInput hashFn s₂) ∧
    (∀ root s₂, hashFn s = hashFn s₂ →
      pathsNewStable hashFn root s = pathsNewStable hashFn root s₂) := by
  have h8 : ("project_".data).length = 8 := by decide
  refine ⟨?_, ?_, ?_, ?_, ?_⟩
  · rw [projectNameFromInput, ← h8, List.take_left]
  · rw [projectNameFromInput, ← h8, List.drop_left, natToHex16_length]
  · rw [projectNameFromInput, ← h8, List.drop_left]
    exact natToHex16_all_hex _
  · intro s₂ h; rw [h]
  · intro root s₂ h
    simp [pathsNewStable, projectNameFromInput, h]

/-- Witness for C10: with a constant hash, two distinct body texts give the
same working-directory address. -/
theorem c10_project_name_witness :
    (projectNameFromInput (fun _ => 51966) "body").take 8 = "project_".data ∧
    pathsNewStable (fun _ => 51966) [] "body"
      = pathsNewStable (fun _ => 51966) [] "other" :=
  ⟨(c10_project_name (fun _ => 51966) "body").1,
    (c10_project_name (fun _ => 51966) "body").2.2.2.2 [] "other" rfl⟩

/-! ### Claim C6: protocol parser fidelity -/

theorem splitOnChar_ne_nil (sep : Char) (s : List Char) : splitOnChar sep s ≠ [] := by
  cases s with
  | nil => simp [splitOnChar]
  | cons c rest =>
    simp only [splitOnChar]
    rcases splitOnChar sep rest with _ | ⟨s₁, ss⟩
    · simp
    · by_cases hc : c = sep <;> simp [hc]

theorem splitOnChar_append (sep : Char) (l rest : List Char)
    (h : ∀ c ∈ l, c ≠ sep) :
    splitOnChar sep (l ++ sep :: rest) = l :: splitOnChar sep rest := by
  induction l with
  | nil =>
    simp only [List.nil_append, splitOnChar]
    rcases hs : splitOnChar sep rest with _ | ⟨s₁, ss⟩
    · exact absurd hs (splitOnChar_ne_nil sep rest)
    · simp
  | cons c l' ih =>
    have hc : c ≠ sep := h c (by simp)
    simp only [List.cons_append, splitOnChar, List.append_eq]
    rw [ih (fun x hx => h x (by simp [hx]))]
    simp [hc]

theorem splitOnChar_single (sep : Char) (d : List Char)
    (h : ∀ c ∈ d, c ≠ sep) :
    splitOnChar sep d = [d] := by
  induction d with
  | nil => simp [splitOnChar]
  | cons c d' ih =>
    have hc : c ≠ sep := h c (by simp)
    simp only [splitOnChar]
    rw [ih (fun x hx => h x (by simp [hx]))]
    simp [hc]

theorem isPrefixOf_self_append (l r : List Char) : l.isPrefixOf (l ++ r) = true := by
  rw [List.isPrefixOf_iff_prefix]
  exact List.prefix_append l r

/-- Claim C6: on a stdout consisting of one generated-code line, one warning
line, one error line and one unprefixed line, the parser (processing the
lines in order, trimming each) returns exactly the generated payload plus a
line break, one warning and one error diagnostic with the payloads after
their markers, and echoes the unprefixed original line unchanged. -/
theorem c6_parse_output_fidelity (wp ep p w e d : List Char)
    (hOut : trimChars (outputMarker ++ p) = outputMarker ++ p)
    (hWarn : trimChars (wp ++ w) = wp ++ w)
    (hErr : trimChars (ep ++ e) = ep ++ e)
    (hEcho : trimChars d = d)
    (hnl1 : ∀ c ∈ outputMarker ++ p, c ≠ '\n')
    (hnl2 : ∀ c ∈ wp ++ w, c ≠ '\n')
    (hnl3 : ∀ c ∈ ep ++ e, c ≠ '\n')
    (hnl4 : ∀ c ∈ d, c ≠ '\n')
    (h1 : outputMarker.isPrefixOf (wp ++ w) = false)
    (h2 : outputMarker.isPrefixOf (ep ++ e) = false)
    (h3 : wp.isPrefixOf (ep ++ e) = false)
    (h4 : outputMarker.isPrefixOf d = false)
    (h5 : wp.isPrefixOf d = false)
    (h6 : ep.isPrefixOf d = false)
    (h7 : d ≠ []) :
    parseOutputLines wp ep
        (splitOnChar '\n'
          ((outputMarker ++ p) ++ '\n' :: ((wp ++ w) ++ '\n' :: ((ep ++ e) ++ '\n' :: d))))
      = (p ++ ['\n'], [.outLine p, .warnLine w, .errLine e, .echoLine d]) := by
  rw [splitOnChar_append _ _ _ hnl1, splitOnChar_append _ _ _ hnl2,
    splitOnChar_append _ _ _ hnl3, splitOnChar_single _ _ hnl4]
  simp only [parseOutputLines, hOut, hWarn, hErr, hEcho,
    isPrefixOf_self_append, h1, h2, h3, h4, h5, h6,
    if_true, if_false, Bool.false_eq_true, ite_false, ite_true]
  simp [List.drop_left, h7]

/-- Witness for C6 on a concrete four-line protocol stream with the
documented `WARNING:` / `ERROR:` markers of `parse_output`. -/
theorem c6_parse_output_fidelity_witness :
    parseOutput
        ((outputMarker ++ " fn gen()".data) ++ '\n' :: ((warningMarker
          ++ " careful".data) ++ '\n' :: ((errorMarker ++ " bad".data)
          ++ '\n' :: "dbg".data)))
      = (" fn gen()".data ++ ['\n'],
          [.outLine " fn gen()".data, .warnLine " careful".data,
            .errLine " bad".data, .echoLine "dbg".data]) :=
  c6_parse_output_fidelity warningMarker errorMarker
    " fn gen()".data " careful".data " bad".data "dbg".data
    (by decide) (by decide) (by decide) (by decide)
    (by decide) (by decide) (by decide) (by decide)
    (by decide) (by decide) (by decide) (by decide) (by decide) (by decide)
    (by decide)

end Crabtime
